import Mathlib

/-! The Nesterov updater of xLearn (`src/updater/nesterov_updater.cc`).

A shallow embedding of `Nesterov::Initialize`, `Nesterov::Update` and
`Nesterov::BatchUpdate`, and theorems about them.

Conventions of the embedding.

* `real_t` is embedded as `ℚ`: the arithmetic is exact, rounding of the
  machine floats is not part of the model.  A second embedding of `Update`,
  `NesterovF32.Update`, computes in binary32; it is used where a statement
  about the values `Update` leaves is tested against rounding and overflow.
* `std::vector<real_t>` is a `List ℚ`.  Reading or writing past the end of a
  vector is undefined behaviour in the source; here it is the explicit
  outcome `Outcome.outOfBounds`.
* A failed `CHECK_*` aborts the process; here it is the outcome
  `Outcome.checkFailed`, which records the state at the moment of the abort.
* `index_t` and `size_t` are `Nat`: the typedefs are declared in a header
  outside this file, and the ids are plain non-negative integers.
-/

namespace xLearn

/-- What a call does: it returns, it aborts on a `CHECK_*` (the payload is the
state at the moment of the abort), or it indexes a vector out of range.  The
last outcome belongs to the embedding only: a loop was cut off by its iteration
bound before its condition became false. -/
inductive Outcome (α : Type) where
  | ok (a : α)
  | checkFailed (a : α)
  | outOfBounds
  | outOfFuel
  deriving DecidableEq, Repr

/-- Modelled from the spec: the type of `HyperParam::regu_type`, declared in a
header outside this file; the spec lists the values `L1`, `L2`, `L1L2`, `None`. -/
inductive ReguType where
  | L1
  | L2
  | L1L2
  | None
  deriving DecidableEq, Repr

/-- Modelled from the spec: the fields of `HyperParam` that `Initialize`
reads (the struct is declared in a header outside this file). -/
structure HyperParam where
  learning_rate : ℚ
  regu_lambda_1 : ℚ
  regu_lambda_2 : ℚ
  regu_type : ReguType
  decay_rate : ℚ
  num_param : Nat
  deriving DecidableEq, Repr

/-- The data members of class `Nesterov` that the three member functions
read and write. -/
structure Nesterov where
  learning_rate_ : ℚ
  regu_lambda_1_ : ℚ
  regu_lambda_2_ : ℚ
  regu_type_ : ReguType
  rho_ : ℚ
  v_ : List ℚ
  deriving DecidableEq, Repr

/-- The call `vec.resize(n, x)` of `std::vector`: the first `min n vec.size()`
elements are kept, and new positions (if any) are filled with `x`. -/
def resize (vec : List ℚ) (n : Nat) (x : ℚ) : List ℚ :=
  vec.take n ++ List.replicate (n - vec.length) x

namespace Nesterov

/-- Embedding of `Nesterov::Initialize`: four checks, five assignments, then the resize of
the velocity vector.  The `bad_alloc` handler is reached only when memory is
exhausted, which lists do not model. -/
def Initialize (s : Nesterov) (hyper_param : HyperParam) : Outcome Nesterov :=
  if ¬ (hyper_param.learning_rate > 0) then .checkFailed s
  else if ¬ (hyper_param.regu_lambda_1 > 0) then .checkFailed s
  else if ¬ (hyper_param.regu_lambda_2 > 0) then .checkFailed s
  else if ¬ (hyper_param.decay_rate ≥ 0) then .checkFailed s
  else
    .ok { learning_rate_ := hyper_param.learning_rate
          regu_lambda_1_ := hyper_param.regu_lambda_1
          regu_lambda_2_ := hyper_param.regu_lambda_2
          regu_type_ := hyper_param.regu_type
          rho_ := hyper_param.decay_rate
          v_ := resize s.v_ hyper_param.num_param 0 }

/-- Embedding of `Nesterov::Update`:
`old_v = v_[id]; v_[id] = rho_ * v_[id] - learning_rate_ * grad;`
`param[id] += -rho_ * old_v + (1+rho_) * v_[id];` -/
def Update (s : Nesterov) (id : Nat) (grad : ℚ) (param : List ℚ) :
    Outcome (Nesterov × List ℚ) :=
  match s.v_[id]? with
  | none => .outOfBounds
  | some old_v =>
    let v1 := s.v_.set id (s.rho_ * old_v - s.learning_rate_ * grad)
    match v1[id]?, param[id]? with
    | some v_id, some p =>
      .ok ({ s with v_ := v1 }, param.set id (p + (-s.rho_ * old_v + (1 + s.rho_) * v_id)))
    | _, _ => .outOfBounds

end Nesterov

/-! ### The vector instructions

The macros `_MMX_*` and the register type `__MX` come from a header outside
this file.  A register of `W` lanes is a list of `W` rationals. -/

/-- Modelled from the spec: `_MMX_SET1_PS`, all `W` lanes hold `x`. -/
def _MMX_SET1_PS (W : Nat) (x : ℚ) : List ℚ := List.replicate W x

/-- Modelled from the spec: `_MMX_LOAD_PS`, the `W` consecutive elements of
`buf` that start at offset `off`; out of bounds when the buffer is shorter. -/
def _MMX_LOAD_PS (W : Nat) (buf : List ℚ) (off : Nat) : Option (List ℚ) :=
  if off + W ≤ buf.length then some ((buf.drop off).take W) else none

/-- Modelled from the spec: `_MMX_STORE_PS`, overwrite the `W` consecutive
elements of `buf` that start at offset `off` with the lanes of `reg`. -/
def _MMX_STORE_PS (W : Nat) (buf : List ℚ) (off : Nat) (reg : List ℚ) : Option (List ℚ) :=
  if off + W ≤ buf.length then some (buf.take off ++ reg.take W ++ buf.drop (off + W)) else none

/-- Modelled from the spec: `_MMX_MUL_PS`, lane-wise product. -/
def _MMX_MUL_PS (a b : List ℚ) : List ℚ := List.zipWith (fun x y => x * y) a b

/-- Modelled from the spec: `_MMX_SUB_PS`, lane-wise difference. -/
def _MMX_SUB_PS (a b : List ℚ) : List ℚ := List.zipWith (fun x y => x - y) a b

/-- Modelled from the spec: `_MMX_ADD_PS`, lane-wise sum. -/
def _MMX_ADD_PS (a b : List ℚ) : List ℚ := List.zipWith (fun x y => x + y) a b

namespace Nesterov

/-- The body of the `for` loop of `Nesterov::BatchUpdate` at loop index `i`:
three loads, the lane-wise recurrence, two stores. -/
def BatchUpdate.body (W : Nat) (value : List ℚ) (start_id : Nat) (i : Nat)
    (s : Nesterov) (param : List ℚ) : Outcome (Nesterov × List ℚ) :=
  let _learning_rate := _MMX_SET1_PS W s.learning_rate_
  let _rho := _MMX_SET1_PS W s.rho_
  let _rho_add_1 := _MMX_SET1_PS W (s.rho_ + 1)
  let id := start_id + i
  match _MMX_LOAD_PS W value i, _MMX_LOAD_PS W s.v_ id, _MMX_LOAD_PS W param id with
  | some _grad, some _v, some _w =>
    let _old_v := _v
    let _v := _MMX_SUB_PS (_MMX_MUL_PS _rho _v) (_MMX_MUL_PS _learning_rate _grad)
    match _MMX_STORE_PS W s.v_ id _v,
          _MMX_STORE_PS W param id
            (_MMX_ADD_PS _w (_MMX_SUB_PS (_MMX_MUL_PS _rho_add_1 _v) (_MMX_MUL_PS _rho _old_v))) with
    | some v1, some param1 => .ok ({ s with v_ := v1 }, param1)
    | _, _ => .outOfBounds
  | _, _, _ => .outOfBounds

/-- The loop `for (size_t i = 0; i < value.size(); i += _MMX_INCREMENT)`, run
from index `i`.  The first argument bounds the number of times the loop
condition is evaluated; using it up is the outcome `outOfFuel`. -/
def BatchUpdate.loop (W : Nat) (value : List ℚ) (start_id : Nat) :
    Nat → Nat → Nesterov → List ℚ → Outcome (Nesterov × List ℚ)
  | 0, _, _, _ => .outOfFuel
  | fuel + 1, i, s, param =>
    if i < value.length then
      match BatchUpdate.body W value start_id i s param with
      | .ok (s1, param1) => BatchUpdate.loop W value start_id fuel (i + W) s1 param1
      | e => e
    else .ok (s, param)

/-- Embedding of `Nesterov::BatchUpdate`, with `W` for the lane count `_MMX_INCREMENT`: the
two checks, then the loop.  With `W > 0` the loop condition is evaluated at
most `value.size() + 1` times, which is the bound given to the loop. -/
def BatchUpdate (W : Nat) (s : Nesterov) (value : List ℚ) (start_id : Nat)
    (param : List ℚ) : Outcome (Nesterov × List ℚ) :=
  if ¬ (value.isEmpty = false) then .checkFailed (s, param)
  else if ¬ (value.length % W = 0) then .checkFailed (s, param)
  else BatchUpdate.loop W value start_id (value.length + 1) 0 s param

/-- One call of `Update` per element of the list, in order, at the ids
`id, id+1, ...`; the first faulting call ends the run. -/
def UpdateEach : List ℚ → Nat → Nesterov → List ℚ → Outcome (Nesterov × List ℚ)
  | [], _, s, param => .ok (s, param)
  | g :: gs, id, s, param =>
    match Update s id g param with
    | .ok (s1, param1) => UpdateEach gs (id + 1) s1 param1
    | e => e

/-- The same call `Update(id, grad, param)` made `n` times in a row. -/
def UpdateRepeat (id : Nat) (grad : ℚ) : Nat → Nesterov → List ℚ → Outcome (Nesterov × List ℚ)
  | 0, s, param => .ok (s, param)
  | n + 1, s, param =>
    match Update s id grad param with
    | .ok (s1, param1) => UpdateRepeat id grad n s1 param1
    | e => e

/-! ### Closed forms used in the proofs

`velAt` and `parAt` describe, entry by entry, the two vectors after the
recurrence has been applied once at each of the ids `id, ..., id + |gs| - 1`
with the gradients `gs`. -/

/-- Entry `k` of the velocity vector after the recurrence on `[id, id + |gs|)`. -/
def velAt (s : Nesterov) (id : Nat) (gs : List ℚ) (k : Nat) : Option ℚ :=
  if id ≤ k ∧ k < id + gs.length then
    some (s.rho_ * s.v_.getD k 0 - s.learning_rate_ * gs.getD (k - id) 0)
  else s.v_[k]?

/-- Entry `k` of the parameter buffer after the recurrence on `[id, id + |gs|)`. -/
def parAt (s : Nesterov) (param : List ℚ) (id : Nat) (gs : List ℚ) (k : Nat) : Option ℚ :=
  if id ≤ k ∧ k < id + gs.length then
    some (param.getD k 0 + (-s.rho_ * s.v_.getD k 0
      + (1 + s.rho_) * (s.rho_ * s.v_.getD k 0 - s.learning_rate_ * gs.getD (k - id) 0)))
  else param[k]?

/-! ### Sequences of calls, and what a caller can observe -/

/-- A sequence of calls `Update(id, grad, param)`, one per pair of the list, in
order; the first faulting call ends the run. -/
def UpdateSeq : List (Nat × ℚ) → Nesterov → List ℚ → Outcome (Nesterov × List ℚ)
  | [], s, param => .ok (s, param)
  | c :: calls, s, param =>
    match Update s c.1 c.2 param with
    | .ok (s1, param1) => UpdateSeq calls s1 param1
    | e => e

/-- The velocity at `id` after each call of a sequence of calls
`Update(id, g, param)` with the gradients `g` of the list, in order. -/
def velocityTrace (id : Nat) : List ℚ → Nesterov → List ℚ → List ℚ
  | [], _, _ => []
  | g :: gs, s, param =>
    match Update s id g param with
    | .ok (s1, param1) => s1.v_.getD id 0 :: velocityTrace id gs s1 param1
    | _ => []

/-- The updater states a run can be in after `Initialize` has returned for a
record with `num_param = N`: the state `Initialize` returns, and the state
that a returning call of `Update` or of `BatchUpdate` leaves. -/
inductive Reachable (W N : Nat) : Nesterov → Prop where
  | init (s0 : Nesterov) (h : HyperParam) (s : Nesterov) :
      h.num_param = N → Initialize s0 h = .ok s → Reachable W N s
  | update (s : Nesterov) (id : Nat) (g : ℚ) (param : List ℚ) (s1 : Nesterov)
      (param1 : List ℚ) :
      Reachable W N s → Update s id g param = .ok (s1, param1) → Reachable W N s1
  | batch (s : Nesterov) (value : List ℚ) (start_id : Nat) (param : List ℚ) (s1 : Nesterov)
      (param1 : List ℚ) :
      Reachable W N s → BatchUpdate W s value start_id param = .ok (s1, param1) →
      Reachable W N s1

end Nesterov

/-- The outcome with `f` applied to the state it carries. -/
def Outcome.map {α β : Type} (f : α → β) : Outcome α → Outcome β
  | .ok a => .ok (f a)
  | .checkFailed a => .checkFailed (f a)
  | .outOfBounds => .outOfBounds
  | .outOfFuel => .outOfFuel

namespace Nesterov

/-- The velocity vector and the parameter buffer of a result. -/
def velocityAndParam (r : Nesterov × List ℚ) : List ℚ × List ℚ := (r.1.v_, r.2)

/-- The updater with its three regularization fields replaced. -/
def setRegu (s : Nesterov) (l1 l2 : ℚ) (t : ReguType) : Nesterov :=
  { s with regu_lambda_1_ := l1, regu_lambda_2_ := l2, regu_type_ := t }

/-- One step of the recurrence on a pair (velocity, parameter). -/
def coordStep (rho lr : ℚ) (vp : ℚ × ℚ) (g : ℚ) : ℚ × ℚ :=
  (rho * vp.1 - lr * g, vp.2 + (-rho * vp.1 + (1 + rho) * (rho * vp.1 - lr * g)))

/-- The gradients of the calls of a sequence that are on the id `k`, in order. -/
def gradsAt (k : Nat) (calls : List (Nat × ℚ)) : List ℚ :=
  (calls.filter (fun c => decide (c.1 = k))).map (fun c => c.2)

end Nesterov

/-! ### The same `Update` in single precision

`real_t` is declared in a header outside this file.  The buffers of `real_t`
are the operands of the `_PS` (packed single precision) vector instructions of
`BatchUpdate`, so a `real_t` is an IEEE binary32 number.  The embedding below
rounds after every operation of `Update` (no fused multiply-add, no wider
intermediate result), to nearest with ties to even, and overflows to an
infinity.  The two zeros are not told apart. -/

/-- A binary32 value: a finite number (held as the rational it denotes), an
infinity with its sign (`true` for the negative one), or a NaN. -/
inductive F32 where
  | fin (q : ℚ)
  | inf (neg : Bool)
  | nan
  deriving DecidableEq, Repr

namespace F32

/-- The rational `2 ^ z`. -/
def pow2 (z : Int) : ℚ :=
  if 0 ≤ z then ((2 ^ z.toNat : Nat) : ℚ) else 1 / ((2 ^ (-z).toNat : Nat) : ℚ)

/-- The number of binary digits of `n`; the first argument bounds the
recursion and is given as `n`. -/
def bitLength : Nat → Nat → Nat
  | 0, _ => 0
  | fuel + 1, n => if n = 0 then 0 else bitLength fuel (n / 2) + 1

/-- The integer `e` with `2 ^ e ≤ a < 2 ^ (e + 1)`, for a positive rational `a`. -/
def ilog2 (a : ℚ) : Int :=
  let k : Int := (bitLength a.num.natAbs a.num.natAbs : Int) - (bitLength a.den a.den : Int)
  if pow2 k ≤ a then k else k - 1

/-- The integer nearest to a non-negative rational, the even one at a tie. -/
def roundHalfEven (a : ℚ) : Int :=
  let f := a.floor
  let r := a - f
  if r < 1/2 then f else if 1/2 < r then f + 1 else if f % 2 = 0 then f else f + 1

/-- Rounding of a rational to binary32: 24 significant bits, least exponent
-126 (below it the spacing stays `2 ^ -149`), nearest value with ties to even,
an infinity when the rounded magnitude reaches `2 ^ 128`. -/
def ofRat (q : ℚ) : F32 :=
  if q = 0 then fin 0 else
  let a := if q < 0 then -q else q
  let e := max (ilog2 a) (-126)
  let ulp := pow2 (e - 23)
  let m := (roundHalfEven (a / ulp) : ℚ) * ulp
  if pow2 128 ≤ m then inf (decide (q < 0)) else fin (if q < 0 then -m else m)

/-- Unary minus. -/
def neg : F32 → F32
  | fin a => fin (-a)
  | inf n => inf (!n)
  | nan => nan

/-- Binary32 addition. -/
def add : F32 → F32 → F32
  | fin a, fin b => ofRat (a + b)
  | fin _, inf n => inf n
  | inf n, fin _ => inf n
  | inf n, inf m => if n = m then inf n else nan
  | _, _ => nan

/-- Binary32 subtraction. -/
def sub (x y : F32) : F32 := add x (neg y)

/-- Binary32 multiplication. -/
def mul : F32 → F32 → F32
  | fin a, fin b => ofRat (a * b)
  | fin a, inf n => if a = 0 then nan else inf (xor (decide (a < 0)) n)
  | inf n, fin b => if b = 0 then nan else inf (xor n (decide (b < 0)))
  | inf n, inf m => inf (xor n m)
  | _, _ => nan

end F32

/-- The data members of class `Nesterov` that `Update` reads and writes, as
binary32 numbers. -/
structure NesterovF32 where
  learning_rate_ : F32
  rho_ : F32
  v_ : List F32
  deriving DecidableEq, Repr

namespace NesterovF32

/-- Embedding of `Nesterov::Update` in binary32 arithmetic:
`old_v = v_[id]; v_[id] = rho_ * v_[id] - learning_rate_ * grad;`
`param[id] += -rho_ * old_v + (1+rho_) * v_[id];` -/
def Update (s : NesterovF32) (id : Nat) (grad : F32) (param : List F32) :
    Outcome (NesterovF32 × List F32) :=
  match s.v_[id]? with
  | none => .outOfBounds
  | some old_v =>
    let v1 := s.v_.set id (F32.sub (F32.mul s.rho_ old_v) (F32.mul s.learning_rate_ grad))
    match v1[id]?, param[id]? with
    | some v_id, some p =>
      .ok ({ s with v_ := v1 },
        param.set id (F32.add p (F32.add (F32.mul (F32.neg s.rho_) old_v)
          (F32.mul (F32.add (F32.fin 1) s.rho_) v_id))))
    | _, _ => .outOfBounds

/-- The same call `Update(id, grad, param)` made `n` times in a row, in
binary32 arithmetic. -/
def UpdateRepeat (id : Nat) (grad : F32) :
    Nat → NesterovF32 → List F32 → Outcome (NesterovF32 × List F32)
  | 0, s, param => .ok (s, param)
  | n + 1, s, param =>
    match Update s id grad param with
    | .ok (s1, param1) => UpdateRepeat id grad n s1 param1
    | e => e

end NesterovF32

/-! ## Theorems -/

namespace Nesterov

/-! ### `Update` on an id that is in range -/

/-- With `id` inside both vectors, `Update` returns, and its result is given
in closed form. -/
theorem Update_eq_ok (s : Nesterov) (id : Nat) (g : ℚ) (param : List ℚ)
    (hv : id < s.v_.length) (hp : id < param.length) :
    Update s id g param =
      .ok ({ s with v_ := s.v_.set id (s.rho_ * s.v_[id] - s.learning_rate_ * g) },
           param.set id (param[id] + (-s.rho_ * s.v_[id]
              + (1 + s.rho_) * (s.rho_ * s.v_[id] - s.learning_rate_ * g)))) := by
  unfold Update
  rw [List.getElem?_eq_getElem hv]
  simp only []
  rw [List.getElem?_set_self hv, List.getElem?_eq_getElem hp]

/-- C1. For an id inside the velocity vector and the parameter buffer,
`Update(id, g, param)` returns with `v'[id] = rho*v[id] - lr*g` and
`param'[id] = param[id] - rho*v[id] + (1+rho)*v'[id]`, where `v[id]` is the
velocity before the call. -/
theorem Update_recurrence (s : Nesterov) (id : Nat) (g : ℚ) (param : List ℚ)
    (hv : id < s.v_.length) (hp : id < param.length) :
    ∃ s1 param1 v1,
      Update s id g param = .ok (s1, param1) ∧
      s1.v_[id]? = some v1 ∧
      v1 = s.rho_ * s.v_[id] - s.learning_rate_ * g ∧
      param1[id]? = some (param[id] - s.rho_ * s.v_[id] + (1 + s.rho_) * v1) := by
  refine ⟨_, _, _, Update_eq_ok s id g param hv hp, ?_, rfl, ?_⟩
  · simp [hv]
  · simp [hp]
    ring

/-- Witness of C1: lr = 1/10, rho = 9/10, velocities `[0, 2]`, parameters
`[5, 7]`, gradient 1 at id 1. -/
theorem Update_recurrence_witness :
    ∃ s1 param1 v1,
      Update ⟨1/10, 1, 1, .None, 9/10, [0, 2]⟩ 1 1 [5, 7] = .ok (s1, param1) ∧
      s1.v_[1]? = some v1 ∧
      v1 = (9/10 : ℚ) * 2 - 1/10 * 1 ∧
      param1[1]? = some ((7 : ℚ) - 9/10 * 2 + (1 + 9/10) * v1) :=
  Update_recurrence ⟨1/10, 1, 1, .None, 9/10, [0, 2]⟩ 1 1 [5, 7] (by simp) (by simp)

/-- The closed form of `Update`, from what the two vectors hold at `id`. -/
theorem Update_of_getElem? (s : Nesterov) (id : Nat) (g : ℚ) (param : List ℚ) (v0 p0 : ℚ)
    (hv : s.v_[id]? = some v0) (hp : param[id]? = some p0) :
    Update s id g param =
      .ok ({ s with v_ := s.v_.set id (s.rho_ * v0 - s.learning_rate_ * g) },
           param.set id (p0 + (-s.rho_ * v0 + (1 + s.rho_) * (s.rho_ * v0 - s.learning_rate_ * g)))) := by
  obtain ⟨hv1, hv2⟩ := List.getElem?_eq_some.mp hv
  obtain ⟨hp1, hp2⟩ := List.getElem?_eq_some.mp hp
  rw [Update_eq_ok s id g param hv1 hp1, hv2, hp2]

/-! ### `Initialize` -/

/-- C3. `Initialize` aborts on a check exactly when `learning_rate <= 0` or
`regu_lambda_1 <= 0` or `regu_lambda_2 <= 0` or `decay_rate < 0`, and returns
exactly when none of the four holds; replacing `regu_type` and `num_param` by
any other values does not change whether it aborts. -/
theorem Initialize_checkFailed_iff (s : Nesterov) (h : HyperParam) :
    ((∃ st, Initialize s h = .checkFailed st) ↔
      (h.learning_rate ≤ 0 ∨ h.regu_lambda_1 ≤ 0 ∨ h.regu_lambda_2 ≤ 0 ∨ h.decay_rate < 0)) ∧
    ((∃ s1, Initialize s h = .ok s1) ↔
      ¬ (h.learning_rate ≤ 0 ∨ h.regu_lambda_1 ≤ 0 ∨ h.regu_lambda_2 ≤ 0 ∨ h.decay_rate < 0)) ∧
    (∀ (t : ReguType) (n : Nat),
      (∃ st, Initialize s { h with regu_type := t, num_param := n } = .checkFailed st) ↔
        (∃ st, Initialize s h = .checkFailed st)) := by
  have key : ∀ h : HyperParam, ((∃ st, Initialize s h = .checkFailed st) ↔
      (h.learning_rate ≤ 0 ∨ h.regu_lambda_1 ≤ 0 ∨ h.regu_lambda_2 ≤ 0 ∨ h.decay_rate < 0)) ∧
    ((∃ s1, Initialize s h = .ok s1) ↔
      ¬ (h.learning_rate ≤ 0 ∨ h.regu_lambda_1 ≤ 0 ∨ h.regu_lambda_2 ≤ 0 ∨ h.decay_rate < 0)) := by
    intro h
    unfold Initialize
    by_cases h1 : h.learning_rate > 0
    · by_cases h2 : h.regu_lambda_1 > 0
      · by_cases h3 : h.regu_lambda_2 > 0
        · by_cases h4 : h.decay_rate ≥ 0
          · simp [h1, h2, h3, h4]
          · simp [h1, h2, h3, h4, not_le.mp h4]
        · simp [h1, h2, h3, not_lt.mp h3]
      · simp [h1, h2, not_lt.mp h2]
    · simp [h1, not_lt.mp h1]
  refine ⟨(key h).1, (key h).2, fun t n => ?_⟩
  rw [(key _).1, (key h).1]

/-- A record that passes the four checks makes `Initialize` return, with the
five fields copied and the velocity vector resized. -/
theorem Initialize_eq_ok (s : Nesterov) (h : HyperParam)
    (hlr : 0 < h.learning_rate) (hl1 : 0 < h.regu_lambda_1) (hl2 : 0 < h.regu_lambda_2)
    (hd : 0 ≤ h.decay_rate) :
    Initialize s h =
      .ok ⟨h.learning_rate, h.regu_lambda_1, h.regu_lambda_2, h.regu_type, h.decay_rate,
           resize s.v_ h.num_param 0⟩ := by
  simp [Initialize, hlr, hl1, hl2, hd]

/-- C4. On an updater whose velocity vector is still empty, `Initialize` with a
record that passes the four checks returns; the velocity vector then has
length `num_param` and holds 0 everywhere, and the stored learning rate and
momentum coefficient are those of the record. -/
theorem Initialize_fresh (s : Nesterov) (h : HyperParam) (hfresh : s.v_ = [])
    (hlr : 0 < h.learning_rate) (hl1 : 0 < h.regu_lambda_1) (hl2 : 0 < h.regu_lambda_2)
    (hd : 0 ≤ h.decay_rate) :
    ∃ s1, Initialize s h = .ok s1 ∧
      s1.v_.length = h.num_param ∧
      (∀ k, k < h.num_param → s1.v_[k]? = some 0) ∧
      s1.v_ = List.replicate h.num_param 0 ∧
      s1.learning_rate_ = h.learning_rate ∧
      s1.rho_ = h.decay_rate := by
  refine ⟨_, Initialize_eq_ok s h hlr hl1 hl2 hd, ?_, ?_, ?_, rfl, rfl⟩
  · simp [resize, hfresh]
  · intro k hk
    simp [resize, hfresh, List.getElem?_replicate, hk]
  · simp [resize, hfresh]

/-- Witness of C4: three parameters, lr = 1/10, rho = 9/10. -/
theorem Initialize_fresh_witness :
    ∃ s1, Initialize ⟨0, 0, 0, .None, 0, []⟩ ⟨1/10, 1, 1, .L2, 9/10, 3⟩ = .ok s1 ∧
      s1.v_.length = 3 ∧
      (∀ k, k < 3 → s1.v_[k]? = some 0) ∧
      s1.v_ = List.replicate 3 0 ∧
      s1.learning_rate_ = 1/10 ∧
      s1.rho_ = 9/10 :=
  Initialize_fresh ⟨0, 0, 0, .None, 0, []⟩ ⟨1/10, 1, 1, .L2, 9/10, 3⟩ rfl
    (by norm_num) (by norm_num) (by norm_num) (by norm_num)

/-! ### The worked scenario, and the frame of `Update` -/

/-- C6. With lr = 1/10 and rho = 9/10, velocity 0 and parameter 0 at `id`: a
first `Update(id, 1, param)` leaves velocity -1/10 and parameter -19/100, a
second one leaves velocity -19/100 and parameter -461/1000, which is the
parameter after the first call plus -271/1000. -/
theorem Update_scenario (s : Nesterov) (id : Nat) (param : List ℚ)
    (hlr : s.learning_rate_ = 1/10) (hrho : s.rho_ = 9/10)
    (hv : s.v_[id]? = some 0) (hp : param[id]? = some 0) :
    ∃ s1 param1 s2 param2,
      Update s id 1 param = .ok (s1, param1) ∧
      s1.v_[id]? = some (-1/10 : ℚ) ∧ param1[id]? = some (-19/100 : ℚ) ∧
      Update s1 id 1 param1 = .ok (s2, param2) ∧
      s2.v_[id]? = some (-19/100 : ℚ) ∧ param2[id]? = some (-461/1000 : ℚ) ∧
      param2[id]? = some (-19/100 + -271/1000 : ℚ) := by
  obtain ⟨hv1, -⟩ := List.getElem?_eq_some.mp hv
  obtain ⟨hp1, -⟩ := List.getElem?_eq_some.mp hp
  have e1 := Update_of_getElem? s id 1 param 0 0 hv hp
  rw [hlr, hrho] at e1
  have hv' : (s.v_.set id ((9/10 : ℚ) * 0 - 1/10 * 1))[id]? = some (-1/10 : ℚ) := by
    rw [List.getElem?_set_self hv1]; norm_num
  have hp' : (param.set id ((0 : ℚ) + (-(9/10) * 0 + (1 + 9/10) * (9/10 * 0 - 1/10 * 1))))[id]?
      = some (-19/100 : ℚ) := by
    rw [List.getElem?_set_self hp1]; norm_num
  have e2 := Update_of_getElem?
    { s with v_ := s.v_.set id ((9/10 : ℚ) * 0 - 1/10 * 1) } id 1 _ _ _ hv' hp'
  simp only [hlr, hrho] at e2
  refine ⟨_, _, _, _, e1, hv', hp', e2, ?_, ?_, ?_⟩
  · rw [List.getElem?_set_self (by simpa using hv1)]; norm_num
  · rw [List.getElem?_set_self (by simpa using hp1)]; norm_num
  · rw [List.getElem?_set_self (by simpa using hp1)]; norm_num

/-- Witness of C6: two coordinates, the scenario runs on id 1. -/
theorem Update_scenario_witness :
    ∃ (s1 : Nesterov) (param1 : List ℚ) (s2 : Nesterov) (param2 : List ℚ),
      Update ⟨1/10, 1, 1, .None, 9/10, [3, 0]⟩ 1 1 [4, 0] = .ok (s1, param1) ∧
      s1.v_[1]? = some (-1/10 : ℚ) ∧ param1[1]? = some (-19/100 : ℚ) ∧
      Update s1 1 1 param1 = .ok (s2, param2) ∧
      s2.v_[1]? = some (-19/100 : ℚ) ∧ param2[1]? = some (-461/1000 : ℚ) ∧
      param2[1]? = some (-19/100 + -271/1000 : ℚ) :=
  Update_scenario ⟨1/10, 1, 1, .None, 9/10, [3, 0]⟩ 1 [4, 0] rfl rfl rfl rfl

/-- C9. For an id inside both vectors, `Update(id, g, param)` returns and
changes nothing but `v[id]` and `param[id]`: every other entry of the velocity
vector and of the parameter buffer is the same, both lengths are the same, and
the learning rate, the momentum coefficient and the three regularization
fields are the same. -/
theorem Update_changes_only_id (s : Nesterov) (id : Nat) (g : ℚ) (param : List ℚ)
    (hv : id < s.v_.length) (hp : id < param.length) :
    ∃ s1 param1,
      Update s id g param = .ok (s1, param1) ∧
      (∀ j, j ≠ id → s1.v_[j]? = s.v_[j]? ∧ param1[j]? = param[j]?) ∧
      s1.v_.length = s.v_.length ∧ param1.length = param.length ∧
      s1.learning_rate_ = s.learning_rate_ ∧ s1.rho_ = s.rho_ ∧
      s1.regu_lambda_1_ = s.regu_lambda_1_ ∧ s1.regu_lambda_2_ = s.regu_lambda_2_ ∧
      s1.regu_type_ = s.regu_type_ := by
  refine ⟨_, _, Update_eq_ok s id g param hv hp, ?_, ?_, ?_, rfl, rfl, rfl, rfl, rfl⟩
  · intro j hj
    exact ⟨List.getElem?_set_ne (Ne.symm hj), List.getElem?_set_ne (Ne.symm hj)⟩
  · simp
  · simp

/-- Witness of C9: three coordinates, the call is on id 1. -/
theorem Update_changes_only_id_witness :
    ∃ s1 param1,
      Update ⟨1/10, 2, 3, .L1, 9/10, [1, 2, 3]⟩ 1 5 [4, 5, 6] = .ok (s1, param1) ∧
      (∀ j, j ≠ 1 → s1.v_[j]? = ([1, 2, 3] : List ℚ)[j]? ∧ param1[j]? = ([4, 5, 6] : List ℚ)[j]?) ∧
      s1.v_.length = 3 ∧ param1.length = 3 ∧
      s1.learning_rate_ = 1/10 ∧ s1.rho_ = 9/10 ∧
      s1.regu_lambda_1_ = 2 ∧ s1.regu_lambda_2_ = 3 ∧
      s1.regu_type_ = .L1 :=
  Update_changes_only_id ⟨1/10, 2, 3, .L1, 9/10, [1, 2, 3]⟩ 1 5 [4, 5, 6] (by decide) (by decide)

/-! ### Repeated calls with gradient zero -/

/-- After `n` calls `Update(id, 0, param)`, starting from velocity `v0` and
parameter `p0` at `id`: the run returns, the velocity at `id` is `rho^n * v0`
and the parameter at `id` is `p0 + v0 * rho^2 * (1 + rho + ... + rho^(n-1))`. -/
theorem UpdateRepeat_zero_grad (id : Nat) (n : Nat) :
    ∀ (s : Nesterov) (param : List ℚ) (v0 p0 : ℚ),
      s.v_[id]? = some v0 → param[id]? = some p0 →
      ∃ s1 param1,
        UpdateRepeat id 0 n s param = .ok (s1, param1) ∧
        s1.v_[id]? = some (s.rho_ ^ n * v0) ∧
        param1[id]? = some (p0 + v0 * s.rho_ ^ 2 * ∑ i ∈ Finset.range n, s.rho_ ^ i) := by
  induction n with
  | zero =>
    intro s param v0 p0 hv hp
    exact ⟨s, param, rfl, by simpa using hv, by simpa using hp⟩
  | succ n ih =>
    intro s param v0 p0 hv hp
    obtain ⟨hv1, -⟩ := List.getElem?_eq_some.mp hv
    obtain ⟨hp1, -⟩ := List.getElem?_eq_some.mp hp
    have e := Update_of_getElem? s id 0 param v0 p0 hv hp
    obtain ⟨s1, param1, hrun, hv', hp'⟩ :=
      ih { s with v_ := s.v_.set id (s.rho_ * v0 - s.learning_rate_ * 0) }
        (param.set id (p0 + (-s.rho_ * v0 + (1 + s.rho_) * (s.rho_ * v0 - s.learning_rate_ * 0))))
        _ _ (List.getElem?_set_self hv1) (List.getElem?_set_self hp1)
    refine ⟨s1, param1, ?_, ?_, ?_⟩
    · simp only [UpdateRepeat, e]
      exact hrun
    · rw [hv']
      congr 1
      simp only []
      ring
    · rw [hp']
      congr 1
      simp only []
      rw [geom_sum_succ]
      ring

/-- C7, amended. In exact rational arithmetic: for any learning rate and
momentum coefficient `rho` and an id inside both vectors, `n` consecutive
calls `Update(id, 0, param)` return and leave the velocity `rho^n * v[id]` at
`id`, where `v[id]` is the velocity before the first call. -/
theorem UpdateRepeat_zero_grad_velocity (s : Nesterov) (id : Nat) (param : List ℚ) (n : Nat)
    (hv : id < s.v_.length) (hp : id < param.length) :
    ∃ s1 param1,
      UpdateRepeat id 0 n s param = .ok (s1, param1) ∧
      s1.v_[id]? = some (s.rho_ ^ n * s.v_[id]) := by
  obtain ⟨s1, param1, h1, h2, -⟩ := UpdateRepeat_zero_grad id n s param _ _
    (List.getElem?_eq_getElem hv) (List.getElem?_eq_getElem hp)
  exact ⟨s1, param1, h1, h2⟩

/-- Witness of C7, amended: rho = 1/2, velocity 8 at id 1, three calls. -/
theorem UpdateRepeat_zero_grad_velocity_witness :
    ∃ (s1 : Nesterov) (param1 : List ℚ),
      UpdateRepeat 1 0 3 ⟨1/10, 1, 1, .None, 1/2, [5, 8]⟩ [0, 0] = .ok (s1, param1) ∧
      s1.v_[1]? = some ((1/2 : ℚ) ^ 3 * 8) :=
  UpdateRepeat_zero_grad_velocity ⟨1/10, 1, 1, .None, 1/2, [5, 8]⟩ 1 [0, 0] 3
    (by decide) (by decide)

/-- C8, amended. In exact rational arithmetic: for `0 <= rho < 1` and an id
inside both vectors, `n` consecutive calls `Update(id, 0, param)` return and
leave the parameter
`p_n = p_0 + v_0 * rho^2 * (1 - rho^n) / (1 - rho)` at `id`, so that
`|p_n - p_0| <= |v_0| * rho^2 / (1 - rho)` whatever `n` is. -/
theorem UpdateRepeat_zero_grad_param (s : Nesterov) (id : Nat) (param : List ℚ) (n : Nat)
    (hv : id < s.v_.length) (hp : id < param.length)
    (hrho0 : 0 ≤ s.rho_) (hrho1 : s.rho_ < 1) :
    ∃ s1 param1 pn,
      UpdateRepeat id 0 n s param = .ok (s1, param1) ∧
      param1[id]? = some pn ∧
      pn = param[id] + s.v_[id] * s.rho_ ^ 2 * (1 - s.rho_ ^ n) / (1 - s.rho_) ∧
      |pn - param[id]| ≤ |s.v_[id]| * s.rho_ ^ 2 / (1 - s.rho_) := by
  obtain ⟨s1, param1, h1, -, h3⟩ := UpdateRepeat_zero_grad id n s param _ _
    (List.getElem?_eq_getElem hv) (List.getElem?_eq_getElem hp)
  have hne : s.rho_ ≠ 1 := ne_of_lt hrho1
  have hpos : 0 < 1 - s.rho_ := by linarith
  have hgeom : ∑ i ∈ Finset.range n, s.rho_ ^ i = (1 - s.rho_ ^ n) / (1 - s.rho_) := by
    rw [geom_sum_eq hne n, ← neg_sub (1 : ℚ) (s.rho_ ^ n), ← neg_sub (1 : ℚ) s.rho_, neg_div_neg_eq]
  have hpow0 : 0 ≤ s.rho_ ^ n := pow_nonneg hrho0 n
  have hpow1 : s.rho_ ^ n ≤ 1 := pow_le_one₀ hrho0 (le_of_lt hrho1)
  refine ⟨s1, param1, _, h1, h3, ?_, ?_⟩
  · rw [hgeom]; ring
  · rw [hgeom]
    have e : param[id] + s.v_[id] * s.rho_ ^ 2 * ((1 - s.rho_ ^ n) / (1 - s.rho_)) - param[id]
        = s.v_[id] * (s.rho_ ^ 2 * (1 - s.rho_ ^ n) / (1 - s.rho_)) := by ring
    have hnn : 0 ≤ s.rho_ ^ 2 * (1 - s.rho_ ^ n) / (1 - s.rho_) :=
      div_nonneg (mul_nonneg (sq_nonneg _) (by linarith)) hpos.le
    have hle : s.rho_ ^ 2 * (1 - s.rho_ ^ n) / (1 - s.rho_) ≤ s.rho_ ^ 2 / (1 - s.rho_) :=
      div_le_div_of_nonneg_right (by nlinarith [sq_nonneg s.rho_]) hpos.le
    rw [e, abs_mul, abs_of_nonneg hnn]
    calc |s.v_[id]| * (s.rho_ ^ 2 * (1 - s.rho_ ^ n) / (1 - s.rho_))
        ≤ |s.v_[id]| * (s.rho_ ^ 2 / (1 - s.rho_)) :=
          mul_le_mul_of_nonneg_left hle (abs_nonneg _)
      _ = |s.v_[id]| * s.rho_ ^ 2 / (1 - s.rho_) := by ring

/-- Witness of C8, amended: rho = 1/2, velocity 8 and parameter 3 at id 1,
three calls. -/
theorem UpdateRepeat_zero_grad_param_witness :
    ∃ (s1 : Nesterov) (param1 : List ℚ) (pn : ℚ),
      UpdateRepeat 1 0 3 ⟨1/10, 1, 1, .None, 1/2, [5, 8]⟩ [0, 3] = .ok (s1, param1) ∧
      param1[1]? = some pn ∧
      pn = (3 : ℚ) + 8 * (1/2) ^ 2 * (1 - (1/2) ^ 3) / (1 - 1/2) ∧
      |pn - 3| ≤ |(8 : ℚ)| * (1/2) ^ 2 / (1 - 1/2) :=
  UpdateRepeat_zero_grad_param ⟨1/10, 1, 1, .None, 1/2, [5, 8]⟩ 1 [0, 3] 3
    (by decide) (by decide) (by norm_num) (by norm_num)

/-! ### One `Update` per coordinate, in closed form -/

/-- A run of `Update` over a range inside both vectors returns, changes only
the velocity vector of the updater, and leaves the entries `velAt`, `parAt`. -/
theorem UpdateEach_closed_form (gs : List ℚ) :
    ∀ (id : Nat) (s : Nesterov) (param : List ℚ),
      id + gs.length ≤ s.v_.length → id + gs.length ≤ param.length →
      ∃ V P, UpdateEach gs id s param = .ok ({ s with v_ := V }, P) ∧
        (∀ k, V[k]? = velAt s id gs k) ∧ (∀ k, P[k]? = parAt s param id gs k) := by
  induction gs with
  | nil =>
    intro id s param _ _
    exact ⟨s.v_, param, rfl, fun k => by rw [velAt, if_neg (by simp)],
      fun k => by rw [parAt, if_neg (by simp)]⟩
  | cons g gs ih =>
    intro id s param hv hp
    simp only [List.length_cons] at hv hp
    have hv1 : id < s.v_.length := by omega
    have hp1 : id < param.length := by omega
    obtain ⟨V, P, hrun, hV, hP⟩ :=
      ih (id + 1) { s with v_ := s.v_.set id (s.rho_ * s.v_[id] - s.learning_rate_ * g) }
        (param.set id (param[id] + (-s.rho_ * s.v_[id]
              + (1 + s.rho_) * (s.rho_ * s.v_[id] - s.learning_rate_ * g))))
        (by simp only [List.length_set]; omega) (by simp only [List.length_set]; omega)
    refine ⟨V, P, ?_, ?_, ?_⟩
    · simp only [UpdateEach, Update_eq_ok s id g param hv1 hp1]
      exact hrun
    · intro k
      rw [hV k]
      simp only [velAt, List.length_cons]
      rcases Nat.lt_trichotomy k id with hk | hk | hk
      · rw [if_neg (by omega), if_neg (by omega), List.getElem?_set_ne (by omega)]
      · subst hk
        rw [if_neg (by omega), if_pos (by omega), List.getElem?_set_self hv1]
        simp [List.getD_eq_getElem?_getD, List.getElem?_eq_getElem hv1]
      · obtain ⟨m, rfl⟩ : ∃ m, k = id + 1 + m := ⟨k - (id + 1), by omega⟩
        have e1 : id + 1 + m - (id + 1) = m := by omega
        have e2 : id + 1 + m - id = m + 1 := by omega
        by_cases hm : m < gs.length
        · rw [if_pos (by omega), if_pos (by omega), e1, e2]
          simp [List.getD_eq_getElem?_getD, List.getElem?_set_ne (show id ≠ id + 1 + m by omega)]
        · rw [if_neg (by omega), if_neg (by omega), List.getElem?_set_ne (by omega)]
    · intro k
      rw [hP k]
      simp only [parAt, List.length_cons]
      rcases Nat.lt_trichotomy k id with hk | hk | hk
      · rw [if_neg (by omega), if_neg (by omega), List.getElem?_set_ne (by omega)]
      · subst hk
        rw [if_neg (by omega), if_pos (by omega), List.getElem?_set_self hp1]
        simp [List.getD_eq_getElem?_getD, List.getElem?_eq_getElem hv1,
          List.getElem?_eq_getElem hp1]
      · obtain ⟨m, rfl⟩ : ∃ m, k = id + 1 + m := ⟨k - (id + 1), by omega⟩
        have e1 : id + 1 + m - (id + 1) = m := by omega
        have e2 : id + 1 + m - id = m + 1 := by omega
        by_cases hm : m < gs.length
        · rw [if_pos (by omega), if_pos (by omega), e1, e2]
          simp [List.getD_eq_getElem?_getD, List.getElem?_set_ne (show id ≠ id + 1 + m by omega)]
        · rw [if_neg (by omega), if_neg (by omega), List.getElem?_set_ne (by omega)]

/-! ### One iteration of the vector loop -/

/-- Entry `k` of a buffer after a store of `W` lanes at offset `off`. -/
theorem getElem?_store (buf reg : List ℚ) (off W k : Nat)
    (h : off + W ≤ buf.length) (hreg : reg.length = W) :
    (buf.take off ++ reg.take W ++ buf.drop (off + W))[k]? =
      if off ≤ k ∧ k < off + W then reg[k - off]? else buf[k]? := by
  have htake : (buf.take off).length = off := by
    rw [List.length_take]; omega
  have hreg' : (reg.take W).length = W := by
    rw [List.length_take]; omega
  rcases Nat.lt_or_ge k off with hk | hk
  · rw [if_neg (by omega), List.append_assoc, List.getElem?_append_left (by omega),
      List.getElem?_take_of_lt hk]
  · rw [List.append_assoc, List.getElem?_append_right (by omega), htake]
    rcases Nat.lt_or_ge k (off + W) with hk2 | hk2
    · rw [if_pos ⟨hk, hk2⟩, List.getElem?_append_left (by omega),
        List.getElem?_take_of_lt (by omega)]
    · rw [if_neg (by omega), List.getElem?_append_right (by omega), hreg', List.getElem?_drop]
      congr 1
      omega

/-- Lane `j` of a register loaded from offset `off`. -/
theorem getElem?_load (buf : List ℚ) (off W j : Nat) (hj : j < W) (h : off + W ≤ buf.length) :
    ((buf.drop off).take W)[j]? = some (buf.getD (off + j) 0) := by
  have hlt : off + j < buf.length := by omega
  rw [List.getElem?_take_of_lt hj, List.getElem?_drop, List.getD_eq_getElem?_getD,
    List.getElem?_eq_getElem hlt]
  rfl

/-- The length of a loaded register. -/
theorem length_load (buf : List ℚ) (off W : Nat) (h : off + W ≤ buf.length) :
    ((buf.drop off).take W).length = W := by
  rw [List.length_take, List.length_drop]; omega

/-- One iteration of the vector loop on lanes that lie inside the three
vectors returns what the two stores have written. -/
theorem BatchUpdate.body_eq_ok (W : Nat) (value : List ℚ) (start_id i : Nat)
    (s : Nesterov) (param : List ℚ)
    (hg : i + W ≤ value.length) (hv : start_id + i + W ≤ s.v_.length)
    (hp : start_id + i + W ≤ param.length) :
    BatchUpdate.body W value start_id i s param =
      .ok ({ s with v_ := s.v_.take (start_id + i) ++
              (_MMX_SUB_PS (_MMX_MUL_PS (_MMX_SET1_PS W s.rho_) ((s.v_.drop (start_id + i)).take W))
                (_MMX_MUL_PS (_MMX_SET1_PS W s.learning_rate_) ((value.drop i).take W))).take W ++
              s.v_.drop (start_id + i + W) },
           param.take (start_id + i) ++
              (_MMX_ADD_PS ((param.drop (start_id + i)).take W)
                (_MMX_SUB_PS
                  (_MMX_MUL_PS (_MMX_SET1_PS W (s.rho_ + 1))
                    (_MMX_SUB_PS
                      (_MMX_MUL_PS (_MMX_SET1_PS W s.rho_) ((s.v_.drop (start_id + i)).take W))
                      (_MMX_MUL_PS (_MMX_SET1_PS W s.learning_rate_) ((value.drop i).take W))))
                  (_MMX_MUL_PS (_MMX_SET1_PS W s.rho_)
                    ((s.v_.drop (start_id + i)).take W)))).take W ++
              param.drop (start_id + i + W)) := by
  simp only [BatchUpdate.body, _MMX_LOAD_PS, _MMX_STORE_PS, if_pos hg, if_pos hv, if_pos hp]

/-- One iteration of the vector loop on lanes that lie inside the three
vectors returns, changes only the velocity vector of the updater, and leaves
the entries `velAt`, `parAt` for the gradients it has loaded. -/
theorem BatchUpdate.body_closed_form (W : Nat) (value : List ℚ) (start_id i : Nat)
    (s : Nesterov) (param : List ℚ)
    (hg : i + W ≤ value.length) (hv : start_id + i + W ≤ s.v_.length)
    (hp : start_id + i + W ≤ param.length) :
    ∃ V P, BatchUpdate.body W value start_id i s param = .ok ({ s with v_ := V }, P) ∧
      (∀ k, V[k]? = velAt s (start_id + i) ((value.drop i).take W) k) ∧
      (∀ k, P[k]? = parAt s param (start_id + i) ((value.drop i).take W) k) := by
  have hlg := length_load value i W hg
  have hlv := length_load s.v_ (start_id + i) W hv
  have hlp := length_load param (start_id + i) W hp
  refine ⟨_, _, BatchUpdate.body_eq_ok W value start_id i s param hg hv hp, ?_, ?_⟩
  · intro k
    rw [getElem?_store _ _ _ _ _ hv
      (by simp [_MMX_SUB_PS, _MMX_MUL_PS, _MMX_SET1_PS, hlg, hlv])]
    simp only [velAt, hlg]
    by_cases hk : start_id + i ≤ k ∧ k < start_id + i + W
    · rw [if_pos hk, if_pos hk]
      obtain ⟨j, rfl⟩ : ∃ j, k = start_id + i + j := ⟨k - (start_id + i), by omega⟩
      have hj : j < W := by omega
      have e : start_id + i + j - (start_id + i) = j := by omega
      rw [e]
      simp only [_MMX_SUB_PS, _MMX_MUL_PS, _MMX_SET1_PS, List.getElem?_zipWith,
        List.getElem?_replicate, if_pos hj, getElem?_load _ _ _ _ hj hg,
        getElem?_load _ _ _ _ hj hv]
      simp [List.getD_eq_getElem?_getD, getElem?_load _ _ _ _ hj hg]
    · rw [if_neg hk, if_neg hk]
  · intro k
    rw [getElem?_store _ _ _ _ _ hp
      (by simp [_MMX_ADD_PS, _MMX_SUB_PS, _MMX_MUL_PS, _MMX_SET1_PS, hlg, hlv, hlp])]
    simp only [parAt, hlg]
    by_cases hk : start_id + i ≤ k ∧ k < start_id + i + W
    · rw [if_pos hk, if_pos hk]
      obtain ⟨j, rfl⟩ : ∃ j, k = start_id + i + j := ⟨k - (start_id + i), by omega⟩
      have hj : j < W := by omega
      have e : start_id + i + j - (start_id + i) = j := by omega
      rw [e]
      simp only [_MMX_ADD_PS, _MMX_SUB_PS, _MMX_MUL_PS, _MMX_SET1_PS, List.getElem?_zipWith,
        List.getElem?_replicate, if_pos hj, getElem?_load _ _ _ _ hj hg,
        getElem?_load _ _ _ _ hj hv, getElem?_load _ _ _ _ hj hp]
      simp only [List.getD_eq_getElem?_getD, getElem?_load _ _ _ _ hj hg, Option.getD_some,
        Option.some.injEq]
      ring
    · rw [if_neg hk, if_neg hk]

/-- A list that has the entries `velAt` is as long as the velocity vector. -/
theorem length_of_velAt (s : Nesterov) (id : Nat) (gs V : List ℚ)
    (hv : id + gs.length ≤ s.v_.length) (hV : ∀ k, V[k]? = velAt s id gs k) :
    V.length = s.v_.length := by
  apply le_antisymm
  · by_contra hlt
    have h1 := hV s.v_.length
    rw [velAt, if_neg (by omega), List.getElem?_eq_none (le_refl _),
      List.getElem?_eq_getElem (by omega)] at h1
    exact Option.noConfusion h1
  · by_contra hlt
    have h1 := hV V.length
    rw [List.getElem?_eq_none (le_refl _), velAt] at h1
    split_ifs at h1
    rw [List.getElem?_eq_getElem (by omega)] at h1
    exact Option.noConfusion h1

/-- A list that has the entries `parAt` is as long as the parameter buffer. -/
theorem length_of_parAt (s : Nesterov) (param : List ℚ) (id : Nat) (gs P : List ℚ)
    (hp : id + gs.length ≤ param.length) (hP : ∀ k, P[k]? = parAt s param id gs k) :
    P.length = param.length := by
  apply le_antisymm
  · by_contra hlt
    have h1 := hP param.length
    rw [parAt, if_neg (by omega), List.getElem?_eq_none (le_refl _),
      List.getElem?_eq_getElem (by omega)] at h1
    exact Option.noConfusion h1
  · by_contra hlt
    have h1 := hP P.length
    rw [List.getElem?_eq_none (le_refl _), parAt] at h1
    split_ifs at h1
    rw [List.getElem?_eq_getElem (by omega)] at h1
    exact Option.noConfusion h1

/-- One iteration of the vector loop does what `Update` does when it is called
on each of the lanes in turn. -/
theorem BatchUpdate.body_eq_UpdateEach (W : Nat) (value : List ℚ) (start_id i : Nat)
    (s : Nesterov) (param : List ℚ)
    (hg : i + W ≤ value.length) (hv : start_id + i + W ≤ s.v_.length)
    (hp : start_id + i + W ≤ param.length) :
    BatchUpdate.body W value start_id i s param =
      UpdateEach ((value.drop i).take W) (start_id + i) s param := by
  have hlg := length_load value i W hg
  obtain ⟨V, P, h1, hV, hP⟩ := BatchUpdate.body_closed_form W value start_id i s param hg hv hp
  obtain ⟨V2, P2, h2, hV2, hP2⟩ := UpdateEach_closed_form ((value.drop i).take W)
    (start_id + i) s param (by rw [hlg]; exact hv) (by rw [hlg]; exact hp)
  have eV : V = V2 := List.ext_getElem? fun k => by rw [hV k, hV2 k]
  have eP : P = P2 := List.ext_getElem? fun k => by rw [hP k, hP2 k]
  rw [h1, h2, eV, eP]

/-- A run of `Update` over `xs ++ ys` is the run over `xs` followed by the run
over `ys` at the ids that come next. -/
theorem UpdateEach_append (xs ys : List ℚ) :
    ∀ (id : Nat) (s : Nesterov) (param : List ℚ),
      UpdateEach (xs ++ ys) id s param =
        match UpdateEach xs id s param with
        | .ok (s1, param1) => UpdateEach ys (id + xs.length) s1 param1
        | e => e := by
  induction xs with
  | nil => intro id s param; simp [UpdateEach]
  | cons x xs ih =>
    intro id s param
    simp only [List.cons_append, UpdateEach, List.length_cons]
    cases h : Update s id x param with
    | ok st =>
      obtain ⟨s1, param1⟩ := st
      have e : id + 1 + xs.length = id + (xs.length + 1) := by omega
      have h2 := ih (id + 1) s1 param1
      rw [e] at h2
      exact h2
    | checkFailed st => rfl
    | outOfBounds => rfl
    | outOfFuel => rfl

/-! ### The vector loop and `BatchUpdate` -/

/-- From an index `i` that leaves a whole number of lane groups, with the
range inside both vectors and an iteration bound above the number of elements
left, the loop returns what a run of `Update` over the elements from `i` on
returns. -/
theorem BatchUpdate.loop_eq_UpdateEach (W : Nat) (value : List ℚ) (start_id : Nat)
    (hW : 0 < W) (fuel : Nat) :
    ∀ (i : Nat) (s : Nesterov) (param : List ℚ),
      i ≤ value.length → W ∣ value.length - i → value.length - i < fuel →
      start_id + value.length ≤ s.v_.length → start_id + value.length ≤ param.length →
      BatchUpdate.loop W value start_id fuel i s param =
        UpdateEach (value.drop i) (start_id + i) s param := by
  induction fuel with
  | zero => intro i s param _ _ hf; omega
  | succ fuel ih =>
    intro i s param hi hdvd hf hv hp
    by_cases hlt : i < value.length
    · have hWle : W ≤ value.length - i := Nat.le_of_dvd (by omega) hdvd
      have hg : i + W ≤ value.length := by omega
      have hlg := length_load value i W hg
      obtain ⟨V, P, h2, hV, hP⟩ := UpdateEach_closed_form ((value.drop i).take W)
        (start_id + i) s param (by rw [hlg]; omega) (by rw [hlg]; omega)
      have hVlen := length_of_velAt s (start_id + i) _ V (by rw [hlg]; omega) hV
      have hPlen := length_of_parAt s param (start_id + i) _ P (by rw [hlg]; omega) hP
      have hsplit : value.drop i = (value.drop i).take W ++ value.drop (i + W) := by
        rw [← List.drop_drop, List.take_append_drop]
      have hdvd2 : W ∣ value.length - (i + W) := by
        have := Nat.dvd_sub' hdvd (dvd_refl W)
        rwa [Nat.sub_sub] at this
      have hrec := ih (i + W) { s with v_ := V } P hg hdvd2 (by omega)
        (by simp only []; omega) (by omega)
      simp only [BatchUpdate.loop, if_pos hlt,
        BatchUpdate.body_eq_UpdateEach W value start_id i s param hg (by omega) (by omega), h2]
      rw [hrec]
      conv_rhs => rw [hsplit, UpdateEach_append, h2]
      simp only [hlg, Nat.add_assoc]
    · have hi2 : i = value.length := by omega
      simp only [BatchUpdate.loop, if_neg hlt]
      rw [hi2, List.drop_length]
      rfl

/-- With a positive lane count, on a non-empty list of gradients whose length
is a multiple of the lane count and whose range lies inside both vectors,
`BatchUpdate` returns what a run of `Update` over the same gradients returns. -/
theorem BatchUpdate_eq_UpdateEach (W : Nat) (s : Nesterov) (value : List ℚ) (start_id : Nat)
    (param : List ℚ) (hW : 0 < W) (hne : value ≠ []) (hmod : value.length % W = 0)
    (hv : start_id + value.length ≤ s.v_.length)
    (hp : start_id + value.length ≤ param.length) :
    BatchUpdate W s value start_id param = UpdateEach value start_id s param := by
  have h1 : value.isEmpty = false := by
    cases value with
    | nil => exact absurd rfl hne
    | cons _ _ => rfl
  unfold BatchUpdate
  rw [if_neg (not_not.mpr h1), if_neg (not_not.mpr hmod)]
  have := BatchUpdate.loop_eq_UpdateEach W value start_id hW (value.length + 1) 0 s param
    (Nat.zero_le _) (by simpa using Nat.dvd_of_mod_eq_zero hmod) (by omega) hv hp
  simpa using this

/-- C2. For a lane count `W > 0`, a non-empty list of gradients whose length is
a multiple of `W`, and a start id with the whole range inside the velocity
vector and the parameter buffer, `BatchUpdate(values, start_id, param)`
returns, and it returns the very updater state and parameter buffer that the
calls `Update(start_id + j, values[j], param)` for `j = 0, 1, ...` in that
order return. -/
theorem BatchUpdate_parity (W : Nat) (s : Nesterov) (value : List ℚ) (start_id : Nat)
    (param : List ℚ) (hW : 0 < W) (hne : value ≠ []) (hmod : value.length % W = 0)
    (hv : start_id + value.length ≤ s.v_.length)
    (hp : start_id + value.length ≤ param.length) :
    ∃ st, BatchUpdate W s value start_id param = .ok st ∧
      UpdateEach value start_id s param = .ok st := by
  obtain ⟨V, P, h, -, -⟩ := UpdateEach_closed_form value start_id s param hv hp
  exact ⟨_, by rw [BatchUpdate_eq_UpdateEach W s value start_id param hW hne hmod hv hp, h], h⟩

/-- Witness of C2: two lanes, four gradients written at the ids 1 to 4 of
vectors of length 6. -/
theorem BatchUpdate_parity_witness :
    ∃ st, BatchUpdate 2 ⟨1/10, 1, 1, .None, 9/10, [1, 2, 3, 4, 5, 6]⟩ [1, -1, 2, 0] 1
        [6, 5, 4, 3, 2, 1] = .ok st ∧
      UpdateEach [1, -1, 2, 0] 1 ⟨1/10, 1, 1, .None, 9/10, [1, 2, 3, 4, 5, 6]⟩
        [6, 5, 4, 3, 2, 1] = .ok st :=
  BatchUpdate_parity 2 ⟨1/10, 1, 1, .None, 9/10, [1, 2, 3, 4, 5, 6]⟩ [1, -1, 2, 0] 1
    [6, 5, 4, 3, 2, 1] (by decide) (by simp) (by decide) (by decide) (by decide)

/-- An iteration of the vector loop contains no check. -/
theorem BatchUpdate.body_ne_checkFailed (W : Nat) (value : List ℚ) (start_id i : Nat)
    (s : Nesterov) (param : List ℚ) (st : Nesterov × List ℚ) :
    BatchUpdate.body W value start_id i s param ≠ .checkFailed st := by
  unfold BatchUpdate.body
  simp only []
  split
  · split
    · exact fun h => Outcome.noConfusion h
    · exact fun h => Outcome.noConfusion h
  · exact fun h => Outcome.noConfusion h

/-- The vector loop contains no check. -/
theorem BatchUpdate.loop_ne_checkFailed (W : Nat) (value : List ℚ) (start_id : Nat)
    (st : Nesterov × List ℚ) (fuel : Nat) :
    ∀ (i : Nat) (s : Nesterov) (param : List ℚ),
      BatchUpdate.loop W value start_id fuel i s param ≠ .checkFailed st := by
  induction fuel with
  | zero => intro i s param h; exact Outcome.noConfusion h
  | succ fuel ih =>
    intro i s param
    simp only [BatchUpdate.loop]
    split_ifs with hlt
    · cases hb : BatchUpdate.body W value start_id i s param with
      | ok r => obtain ⟨s1, p1⟩ := r; exact ih _ _ _
      | checkFailed r => exact absurd hb (BatchUpdate.body_ne_checkFailed _ _ _ _ _ _ _)
      | outOfBounds => exact fun h => Outcome.noConfusion h
      | outOfFuel => exact fun h => Outcome.noConfusion h
    · exact fun h => Outcome.noConfusion h

/-- C5. `BatchUpdate(values, start_id, param)` aborts on a check exactly when
`values` is empty or its length is not a multiple of the lane count; at the
abort the updater and the parameter buffer are the ones the call was given. -/
theorem BatchUpdate_checkFailed_iff (W : Nat) (s : Nesterov) (value : List ℚ) (start_id : Nat)
    (param : List ℚ) :
    ((∃ st, BatchUpdate W s value start_id param = .checkFailed st) ↔
      (value = [] ∨ value.length % W ≠ 0)) ∧
    (∀ st, BatchUpdate W s value start_id param = .checkFailed st → st = (s, param)) := by
  have hemp : value.isEmpty = false ↔ value ≠ [] := by
    cases value <;> simp
  unfold BatchUpdate
  by_cases h1 : value.isEmpty = false
  · by_cases h2 : value.length % W = 0
    · rw [if_neg (not_not.mpr h1), if_neg (not_not.mpr h2)]
      refine ⟨⟨fun ⟨st, h⟩ => absurd h (BatchUpdate.loop_ne_checkFailed _ _ _ _ _ _ _ _), ?_⟩,
        fun st h => absurd h (BatchUpdate.loop_ne_checkFailed _ _ _ _ _ _ _ _)⟩
      rintro (h | h)
      · exact absurd h (hemp.mp h1)
      · exact absurd h2 h
    · rw [if_neg (not_not.mpr h1), if_pos h2]
      exact ⟨⟨fun _ => Or.inr h2, fun _ => ⟨_, rfl⟩⟩, fun st h => (Outcome.checkFailed.inj h).symm⟩
  · rw [if_pos h1]
    refine ⟨⟨fun _ => Or.inl ?_, fun _ => ⟨_, rfl⟩⟩, fun st h => (Outcome.checkFailed.inj h).symm⟩
    by_contra hne
    exact h1 (hemp.mpr hne)

/-- C10. For a list of gradients that passes the two checks and a start id
with the whole range inside both vectors, `BatchUpdate` returns and changes
the velocity vector and the parameter buffer only at the ids in
`[start_id, start_id + len(values))`: every entry outside is the same, both
lengths are the same, and the learning rate, the momentum coefficient and the
three regularization fields are the same. -/
theorem BatchUpdate_changes_only_range (W : Nat) (s : Nesterov) (value : List ℚ) (start_id : Nat)
    (param : List ℚ) (hne : value ≠ []) (hmod : value.length % W = 0)
    (hv : start_id + value.length ≤ s.v_.length)
    (hp : start_id + value.length ≤ param.length) :
    ∃ s1 param1,
      BatchUpdate W s value start_id param = .ok (s1, param1) ∧
      (∀ k, k < start_id ∨ start_id + value.length ≤ k →
        s1.v_[k]? = s.v_[k]? ∧ param1[k]? = param[k]?) ∧
      s1.v_.length = s.v_.length ∧ param1.length = param.length ∧
      s1.learning_rate_ = s.learning_rate_ ∧ s1.rho_ = s.rho_ ∧
      s1.regu_lambda_1_ = s.regu_lambda_1_ ∧ s1.regu_lambda_2_ = s.regu_lambda_2_ ∧
      s1.regu_type_ = s.regu_type_ := by
  have hW : 0 < W := by
    rcases Nat.eq_zero_or_pos W with h0 | h0
    · subst h0
      rw [Nat.mod_zero] at hmod
      exact absurd (List.length_eq_zero.mp hmod) hne
    · exact h0
  obtain ⟨V, P, h, hV, hP⟩ := UpdateEach_closed_form value start_id s param hv hp
  refine ⟨{ s with v_ := V }, P,
    by rw [BatchUpdate_eq_UpdateEach W s value start_id param hW hne hmod hv hp, h],
    ?_, length_of_velAt s start_id value V hv hV, length_of_parAt s param start_id value P hp hP,
    rfl, rfl, rfl, rfl, rfl⟩
  intro k hk
  constructor
  · rw [hV k, velAt, if_neg (by omega)]
  · rw [hP k, parAt, if_neg (by omega)]

/-- Witness of C10: two lanes, four gradients written at the ids 1 to 4 of
vectors of length 6. -/
theorem BatchUpdate_changes_only_range_witness :
    ∃ (s1 : Nesterov) (param1 : List ℚ),
      BatchUpdate 2 ⟨1/10, 2, 3, .L1L2, 9/10, [1, 2, 3, 4, 5, 6]⟩ [1, -1, 2, 0] 1
        [6, 5, 4, 3, 2, 1] = .ok (s1, param1) ∧
      (∀ k, k < 1 ∨ 1 + ([1, -1, 2, 0] : List ℚ).length ≤ k →
        s1.v_[k]? = ([1, 2, 3, 4, 5, 6] : List ℚ)[k]? ∧
        param1[k]? = ([6, 5, 4, 3, 2, 1] : List ℚ)[k]?) ∧
      s1.v_.length = 6 ∧ param1.length = 6 ∧
      s1.learning_rate_ = 1/10 ∧ s1.rho_ = 9/10 ∧
      s1.regu_lambda_1_ = 2 ∧ s1.regu_lambda_2_ = 3 ∧
      s1.regu_type_ = .L1L2 :=
  BatchUpdate_changes_only_range 2 ⟨1/10, 2, 3, .L1L2, 9/10, [1, 2, 3, 4, 5, 6]⟩ [1, -1, 2, 0] 1
    [6, 5, 4, 3, 2, 1] (by simp) (by decide) (by decide) (by decide)

/-! ### `Update` has no failure of its own -/

/-- C11. For an id inside the velocity vector and the parameter buffer and any
gradient, learning rate and momentum coefficient, `Update` returns a new state:
its outcome is not the out-of-range one, and it is neither a failed check nor
a cut-off loop whatever the arguments are. -/
theorem Update_never_fails (s : Nesterov) (id : Nat) (g : ℚ) (param : List ℚ)
    (hv : id < s.v_.length) (hp : id < param.length) :
    (∃ st, Update s id g param = .ok st) ∧
    Update s id g param ≠ .outOfBounds ∧
    (∀ (t : Nesterov) (j : Nat) (x : ℚ) (q : List ℚ) (st : Nesterov × List ℚ),
      Update t j x q ≠ .checkFailed st ∧ Update t j x q ≠ .outOfFuel) := by
  have h := Update_eq_ok s id g param hv hp
  refine ⟨⟨_, h⟩, by rw [h]; exact fun e => Outcome.noConfusion e, ?_⟩
  intro t j x q st
  unfold Update
  constructor
  · split
    · exact fun e => Outcome.noConfusion e
    · simp only []
      split
      · exact fun e => Outcome.noConfusion e
      · exact fun e => Outcome.noConfusion e
  · split
    · exact fun e => Outcome.noConfusion e
    · simp only []
      split
      · exact fun e => Outcome.noConfusion e
      · exact fun e => Outcome.noConfusion e

/-- Witness of C11: a call on id 2 of vectors of length 3, with a negative
learning rate and a momentum coefficient above 1. -/
theorem Update_never_fails_witness :
    (∃ st, Update ⟨-1, 0, 0, .None, 7, [1, 2, 3]⟩ 2 (-5) [0, 0, 0] = .ok st) ∧
    Update ⟨-1, 0, 0, .None, 7, [1, 2, 3]⟩ 2 (-5) [0, 0, 0] ≠ .outOfBounds ∧
    (∀ (t : Nesterov) (j : Nat) (x : ℚ) (q : List ℚ) (st : Nesterov × List ℚ),
      Update t j x q ≠ .checkFailed st ∧ Update t j x q ≠ .outOfFuel) :=
  Update_never_fails ⟨-1, 0, 0, .None, 7, [1, 2, 3]⟩ 2 (-5) [0, 0, 0] (by decide) (by decide)

/-! ### The length check of `BatchUpdate` -/

/-- Counterexample to C13 as stated: with two lanes and three gradients the
length is not a multiple of the lane count, and `BatchUpdate` aborts on its
check. -/
theorem BatchUpdate_misaligned_is_checked :
    ([1, -1, 2] : List ℚ).length % 2 ≠ 0 ∧
    BatchUpdate 2 ⟨1/10, 1, 1, .None, 9/10, [1, 2, 3, 4, 5, 6]⟩ [1, -1, 2] 1 [6, 5, 4, 3, 2, 1]
      = .checkFailed (⟨1/10, 1, 1, .None, 9/10, [1, 2, 3, 4, 5, 6]⟩, [6, 5, 4, 3, 2, 1]) :=
  ⟨by decide, rfl⟩

/-- C13, amended. A misaligned batch length is checked at run time: on a list
of gradients whose length is not a multiple of the lane count, `BatchUpdate`
aborts on a check, with the updater and the parameter buffer as they were
given. -/
theorem BatchUpdate_misaligned_checkFailed (W : Nat) (s : Nesterov) (value : List ℚ)
    (start_id : Nat) (param : List ℚ) (hmis : value.length % W ≠ 0) :
    BatchUpdate W s value start_id param = .checkFailed (s, param) := by
  unfold BatchUpdate
  by_cases h1 : value.isEmpty = false
  · rw [if_neg (not_not.mpr h1), if_pos hmis]
  · rw [if_pos h1]

/-- Witness of C13, amended: four lanes, five gradients. -/
theorem BatchUpdate_misaligned_checkFailed_witness :
    BatchUpdate 4 ⟨1/10, 1, 1, .None, 9/10, [1, 2, 3, 4, 5, 6]⟩ [1, 1, 1, 1, 1] 0
      [6, 5, 4, 3, 2, 1]
      = .checkFailed (⟨1/10, 1, 1, .None, 9/10, [1, 2, 3, 4, 5, 6]⟩, [6, 5, 4, 3, 2, 1]) :=
  BatchUpdate_misaligned_checkFailed 4 ⟨1/10, 1, 1, .None, 9/10, [1, 2, 3, 4, 5, 6]⟩
    [1, 1, 1, 1, 1] 0 [6, 5, 4, 3, 2, 1] (by decide)

/-! ### `Initialize` on an updater that already has velocities -/

/-- The length of a resized vector. -/
theorem length_resize (vec : List ℚ) (n : Nat) (x : ℚ) : (resize vec n x).length = n := by
  simp only [resize, List.length_append, List.length_take, List.length_replicate]
  omega

/-- The entries of a resized vector: the old ones below the old length, the
fill value from there on. -/
theorem getElem?_resize (vec : List ℚ) (n : Nat) (x : ℚ) (k : Nat) (hk : k < n) :
    (resize vec n x)[k]? = if k < vec.length then vec[k]? else some x := by
  unfold resize
  by_cases h : k < vec.length
  · rw [if_pos h, List.getElem?_append_left (by rw [List.length_take]; omega),
      List.getElem?_take_of_lt hk]
  · rw [if_neg h, List.getElem?_append_right (by rw [List.length_take]; omega),
      List.getElem?_replicate, if_pos (by rw [List.length_take]; omega)]

/-- C16. `Initialize` with a record that passes the four checks and has
`num_param = N`, on an updater whose velocity vector has length `M`, returns;
the velocity vector then has length `N`, its first `min M N` entries are the
previous ones, and only the entries at the indices from `M` on are 0. -/
theorem Initialize_keeps_velocity (s : Nesterov) (h : HyperParam)
    (hlr : 0 < h.learning_rate) (hl1 : 0 < h.regu_lambda_1) (hl2 : 0 < h.regu_lambda_2)
    (hd : 0 ≤ h.decay_rate) :
    ∃ s1, Initialize s h = .ok s1 ∧
      s1.v_.length = h.num_param ∧
      (∀ k, k < min s.v_.length h.num_param → s1.v_[k]? = s.v_[k]?) ∧
      (∀ k, s.v_.length ≤ k → k < h.num_param → s1.v_[k]? = some 0) := by
  refine ⟨_, Initialize_eq_ok s h hlr hl1 hl2 hd, length_resize _ _ _, ?_, ?_⟩
  · intro k hk
    have h1 : k < s.v_.length := lt_of_lt_of_le hk (min_le_left _ _)
    have h2 : k < h.num_param := lt_of_lt_of_le hk (min_le_right _ _)
    simp only []
    rw [getElem?_resize _ _ _ _ h2, if_pos h1]
  · intro k hk1 hk2
    simp only []
    rw [getElem?_resize _ _ _ _ hk2, if_neg (by omega)]

/-- Witness of C16: velocities `[7, 8]` before, four parameters after. -/
theorem Initialize_keeps_velocity_witness :
    ∃ s1, Initialize ⟨1, 1, 1, .None, 1, [7, 8]⟩ ⟨1/10, 1, 1, .L2, 9/10, 4⟩ = .ok s1 ∧
      s1.v_.length = 4 ∧
      (∀ k, k < min ([7, 8] : List ℚ).length 4 → s1.v_[k]? = ([7, 8] : List ℚ)[k]?) ∧
      (∀ k, ([7, 8] : List ℚ).length ≤ k → k < 4 → s1.v_[k]? = some 0) :=
  Initialize_keeps_velocity ⟨1, 1, 1, .None, 1, [7, 8]⟩ ⟨1/10, 1, 1, .L2, 9/10, 4⟩
    (by norm_num) (by norm_num) (by norm_num) (by norm_num)

/-! ### `BatchUpdate` in two pieces -/

/-- C18. For two lists of gradients whose lengths are positive multiples of the
lane count and a start id with the whole range inside both vectors,
`BatchUpdate(xs, start_id, param)` returns, `BatchUpdate(ys, start_id + len(xs),
param)` after it returns, and `BatchUpdate(xs ++ ys, start_id, param)` returns
the same updater state and parameter buffer as the two calls. -/
theorem BatchUpdate_append (W : Nat) (s : Nesterov) (xs ys : List ℚ) (start_id : Nat)
    (param : List ℚ) (hx : xs ≠ []) (hy : ys ≠ [])
    (hxm : xs.length % W = 0) (hym : ys.length % W = 0)
    (hv : start_id + (xs ++ ys).length ≤ s.v_.length)
    (hp : start_id + (xs ++ ys).length ≤ param.length) :
    ∃ s1 param1 st,
      BatchUpdate W s xs start_id param = .ok (s1, param1) ∧
      BatchUpdate W s1 ys (start_id + xs.length) param1 = .ok st ∧
      BatchUpdate W s (xs ++ ys) start_id param = .ok st := by
  have hW : 0 < W := by
    rcases Nat.eq_zero_or_pos W with h0 | h0
    · subst h0
      rw [Nat.mod_zero] at hxm
      exact absurd (List.length_eq_zero.mp hxm) hx
    · exact h0
  rw [List.length_append] at hv hp
  obtain ⟨V, P, h1, hV, hP⟩ := UpdateEach_closed_form xs start_id s param (by omega) (by omega)
  have hVlen := length_of_velAt s start_id xs V (by omega) hV
  have hPlen := length_of_parAt s param start_id xs P (by omega) hP
  obtain ⟨V2, P2, h2, -, -⟩ := UpdateEach_closed_form ys (start_id + xs.length)
    { s with v_ := V } P (by simp only []; omega) (by omega)
  refine ⟨{ s with v_ := V }, P, ({ s with v_ := V2 }, P2), ?_, ?_, ?_⟩
  · rw [BatchUpdate_eq_UpdateEach W s xs start_id param hW hx hxm (by omega) (by omega), h1]
  · rw [BatchUpdate_eq_UpdateEach W _ ys _ P hW hy hym (by simp only []; omega) (by omega), h2]
  · rw [BatchUpdate_eq_UpdateEach W s (xs ++ ys) start_id param hW (by simp [hx])
      (by rw [List.length_append, Nat.add_mod, hxm, hym]; simp) (by rw [List.length_append]; omega)
      (by rw [List.length_append]; omega), UpdateEach_append, h1]
    exact h2

/-- Witness of C18: two lanes, a piece of two gradients and a piece of four. -/
theorem BatchUpdate_append_witness :
    ∃ (s1 : Nesterov) (param1 : List ℚ) (st : Nesterov × List ℚ),
      BatchUpdate 2 ⟨1/10, 1, 1, .None, 9/10, [1, 2, 3, 4, 5, 6, 7]⟩ [1, -1] 1
        [7, 6, 5, 4, 3, 2, 1] = .ok (s1, param1) ∧
      BatchUpdate 2 s1 [2, 0, 3, 1] (1 + ([1, -1] : List ℚ).length) param1 = .ok st ∧
      BatchUpdate 2 ⟨1/10, 1, 1, .None, 9/10, [1, 2, 3, 4, 5, 6, 7]⟩ ([1, -1] ++ [2, 0, 3, 1]) 1
        [7, 6, 5, 4, 3, 2, 1] = .ok st :=
  BatchUpdate_append 2 ⟨1/10, 1, 1, .None, 9/10, [1, 2, 3, 4, 5, 6, 7]⟩ [1, -1] [2, 0, 3, 1] 1
    [7, 6, 5, 4, 3, 2, 1] (by simp) (by simp) (by decide) (by decide) (by decide) (by decide)

/-! ### The lengths of the two vectors -/

/-- A call of `Update` that returns was on an id inside both vectors. -/
theorem Update_ok_inv (s : Nesterov) (id : Nat) (g : ℚ) (param : List ℚ)
    (st : Nesterov × List ℚ) (h : Update s id g param = .ok st) :
    id < s.v_.length ∧ id < param.length := by
  by_contra hn
  rcases Nat.lt_or_ge id s.v_.length with hv | hv
  · have hp : param.length ≤ id := by
      by_contra hp
      exact hn ⟨hv, by omega⟩
    unfold Update at h
    rw [List.getElem?_eq_getElem hv] at h
    simp only [] at h
    rw [List.getElem?_set_self hv, List.getElem?_eq_none hp] at h
    exact Outcome.noConfusion h
  · unfold Update at h
    rw [List.getElem?_eq_none hv] at h
    exact Outcome.noConfusion h

/-- A call of `Update` that returns leaves both lengths as they were. -/
theorem Update_ok_length (s : Nesterov) (id : Nat) (g : ℚ) (param : List ℚ)
    (s1 : Nesterov) (param1 : List ℚ) (h : Update s id g param = .ok (s1, param1)) :
    s1.v_.length = s.v_.length ∧ param1.length = param.length := by
  obtain ⟨hv, hp⟩ := Update_ok_inv s id g param _ h
  rw [Update_eq_ok s id g param hv hp] at h
  have e := Outcome.ok.inj h
  rw [← (Prod.mk.inj e).1, ← (Prod.mk.inj e).2]
  exact ⟨List.length_set _ _ _, List.length_set _ _ _⟩

/-- An iteration of the vector loop that returns had its lanes inside the
three vectors. -/
theorem BatchUpdate.body_ok_inv (W : Nat) (value : List ℚ) (start_id i : Nat)
    (s : Nesterov) (param : List ℚ) (st : Nesterov × List ℚ)
    (h : BatchUpdate.body W value start_id i s param = .ok st) :
    i + W ≤ value.length ∧ start_id + i + W ≤ s.v_.length ∧
      start_id + i + W ≤ param.length := by
  by_contra hn
  unfold BatchUpdate.body at h
  simp only [_MMX_LOAD_PS] at h
  by_cases hg : i + W ≤ value.length
  · by_cases hv : start_id + i + W ≤ s.v_.length
    · by_cases hp : start_id + i + W ≤ param.length
      · exact hn ⟨hg, hv, hp⟩
      · rw [if_pos hg, if_pos hv, if_neg hp] at h
        exact Outcome.noConfusion h
    · rw [if_pos hg, if_neg hv] at h
      exact Outcome.noConfusion h
  · rw [if_neg hg] at h
    exact Outcome.noConfusion h

/-- An iteration of the vector loop that returns leaves both lengths as they
were. -/
theorem BatchUpdate.body_ok_length (W : Nat) (value : List ℚ) (start_id i : Nat)
    (s : Nesterov) (param : List ℚ) (s1 : Nesterov) (param1 : List ℚ)
    (h : BatchUpdate.body W value start_id i s param = .ok (s1, param1)) :
    s1.v_.length = s.v_.length ∧ param1.length = param.length := by
  obtain ⟨hg, hv, hp⟩ := BatchUpdate.body_ok_inv W value start_id i s param _ h
  have hlg := length_load value i W hg
  obtain ⟨V, P, h1, hV, hP⟩ := BatchUpdate.body_closed_form W value start_id i s param hg hv hp
  rw [h1] at h
  have e := Outcome.ok.inj h
  rw [← (Prod.mk.inj e).1, ← (Prod.mk.inj e).2]
  exact ⟨length_of_velAt s _ _ V (by rw [hlg]; exact hv) hV,
    length_of_parAt s param _ _ P (by rw [hlg]; exact hp) hP⟩

/-- A run of the vector loop that returns leaves both lengths as they were. -/
theorem BatchUpdate.loop_ok_length (W : Nat) (value : List ℚ) (start_id : Nat) (fuel : Nat) :
    ∀ (i : Nat) (s : Nesterov) (param : List ℚ) (s1 : Nesterov) (param1 : List ℚ),
      BatchUpdate.loop W value start_id fuel i s param = .ok (s1, param1) →
      s1.v_.length = s.v_.length ∧ param1.length = param.length := by
  induction fuel with
  | zero => intro i s param s1 param1 h; exact Outcome.noConfusion h
  | succ fuel ih =>
    intro i s param s1 param1 h
    simp only [BatchUpdate.loop] at h
    split_ifs at h with hlt
    · cases hb : BatchUpdate.body W value start_id i s param with
      | ok r =>
        obtain ⟨s2, p2⟩ := r
        rw [hb] at h
        obtain ⟨e1, e2⟩ := BatchUpdate.body_ok_length W value start_id i s param s2 p2 hb
        obtain ⟨e3, e4⟩ := ih _ _ _ _ _ h
        exact ⟨e3.trans e1, e4.trans e2⟩
      | checkFailed r => rw [hb] at h; exact Outcome.noConfusion h
      | outOfBounds => rw [hb] at h; exact Outcome.noConfusion h
      | outOfFuel => rw [hb] at h; exact Outcome.noConfusion h
    · have e := Outcome.ok.inj h
      rw [← (Prod.mk.inj e).1, ← (Prod.mk.inj e).2]
      exact ⟨rfl, rfl⟩

/-- A call of `BatchUpdate` that returns leaves both lengths as they were. -/
theorem BatchUpdate_ok_length (W : Nat) (s : Nesterov) (value : List ℚ) (start_id : Nat)
    (param : List ℚ) (s1 : Nesterov) (param1 : List ℚ)
    (h : BatchUpdate W s value start_id param = .ok (s1, param1)) :
    s1.v_.length = s.v_.length ∧ param1.length = param.length := by
  unfold BatchUpdate at h
  split_ifs at h
  exact BatchUpdate.loop_ok_length W value start_id _ _ _ _ _ _ h

/-- A call of `Initialize` that returns leaves a velocity vector of length
`num_param`. -/
theorem Initialize_ok_length (s0 : Nesterov) (h : HyperParam) (s : Nesterov)
    (hi : Initialize s0 h = .ok s) : s.v_.length = h.num_param := by
  unfold Initialize at hi
  split_ifs at hi
  rw [← Outcome.ok.inj hi]
  exact length_resize _ _ _

/-- C14. In every state reachable after `Initialize` has returned for
`num_param = N`, the velocity vector has length `N`; every call of `Update` or
`BatchUpdate` from such a state that returns leaves a velocity vector of
length `N` and a parameter buffer as long as the one it was given. -/
theorem velocity_length_invariant (W N : Nat) (s : Nesterov) (hr : Reachable W N s) :
    s.v_.length = N ∧
    (∀ id g param s1 param1, Update s id g param = .ok (s1, param1) →
      s1.v_.length = N ∧ param1.length = param.length) ∧
    (∀ value start_id param s1 param1, BatchUpdate W s value start_id param = .ok (s1, param1) →
      s1.v_.length = N ∧ param1.length = param.length) := by
  have hN : s.v_.length = N := by
    induction hr with
    | init s0 h s hn hi => rw [Initialize_ok_length s0 h s hi, hn]
    | update s id g param s1 param1 _ hu ih =>
      rw [(Update_ok_length s id g param s1 param1 hu).1, ih]
    | batch s value start_id param s1 param1 _ hb ih =>
      rw [(BatchUpdate_ok_length W s value start_id param s1 param1 hb).1, ih]
  refine ⟨hN, ?_, ?_⟩
  · intro id g param s1 param1 hu
    obtain ⟨e1, e2⟩ := Update_ok_length s id g param s1 param1 hu
    exact ⟨e1.trans hN, e2⟩
  · intro value start_id param s1 param1 hb
    obtain ⟨e1, e2⟩ := BatchUpdate_ok_length W s value start_id param s1 param1 hb
    exact ⟨e1.trans hN, e2⟩

/-- Witness of C14: the state after `Initialize` for four parameters and one
call `Update(2, 1, param)`. -/
theorem velocity_length_invariant_witness :
    Reachable 2 4 ⟨1/10, 1, 1, .L2, 9/10, [0, 0, -1/10, 0]⟩ ∧
    (⟨1/10, 1, 1, .L2, 9/10, [0, 0, -1/10, 0]⟩ : Nesterov).v_.length = 4 ∧
    (∀ id g param s1 param1,
      Update ⟨1/10, 1, 1, .L2, 9/10, [0, 0, -1/10, 0]⟩ id g param = .ok (s1, param1) →
      s1.v_.length = 4 ∧ param1.length = param.length) ∧
    (∀ value start_id param s1 param1,
      BatchUpdate 2 ⟨1/10, 1, 1, .L2, 9/10, [0, 0, -1/10, 0]⟩ value start_id param
        = .ok (s1, param1) →
      s1.v_.length = 4 ∧ param1.length = param.length) :=
  have hr : Reachable 2 4 ⟨1/10, 1, 1, .L2, 9/10, [0, 0, -1/10, 0]⟩ :=
    Reachable.update ⟨1/10, 1, 1, .L2, 9/10, [0, 0, 0, 0]⟩ 2 1 [5, 5, 5, 5] _
      [5, 5, 5 + (-(9/10) * 0 + (1 + 9/10) * (9/10 * 0 - 1/10 * 1)), 5]
      (Reachable.init ⟨0, 0, 0, .None, 0, []⟩ ⟨1/10, 1, 1, .L2, 9/10, 4⟩ _ rfl
        (Initialize_eq_ok _ _ (by norm_num) (by norm_num) (by norm_num) (by norm_num)))
      (by
        rw [Update_eq_ok _ 2 1 [5, 5, 5, 5] (by decide) (by decide)]
        norm_num)
  ⟨hr, velocity_length_invariant 2 4 _ hr⟩

/-! ### The regularization fields are not read -/

/-- Replacing the regularization fields before a call of `Update` is the same
as replacing them in its result. -/
theorem Update_setRegu (s : Nesterov) (l1 l2 : ℚ) (t : ReguType) (id : Nat) (g : ℚ)
    (param : List ℚ) :
    Update (setRegu s l1 l2 t) id g param =
      (Update s id g param).map (fun r => (setRegu r.1 l1 l2 t, r.2)) := by
  unfold Update setRegu
  simp only []
  cases s.v_[id]? with
  | none => rfl
  | some old_v =>
    simp only []
    cases (s.v_.set id (s.rho_ * old_v - s.learning_rate_ * g))[id]? with
    | none => rfl
    | some v_id =>
      cases param[id]? with
      | none => rfl
      | some p => rfl

/-- Replacing the regularization fields before an iteration of the vector loop
is the same as replacing them in its result. -/
theorem BatchUpdate.body_setRegu (W : Nat) (value : List ℚ) (start_id i : Nat)
    (s : Nesterov) (l1 l2 : ℚ) (t : ReguType) (param : List ℚ) :
    BatchUpdate.body W value start_id i (setRegu s l1 l2 t) param =
      (BatchUpdate.body W value start_id i s param).map
        (fun r => (setRegu r.1 l1 l2 t, r.2)) := by
  unfold BatchUpdate.body setRegu
  simp only []
  cases _MMX_LOAD_PS W value i with
  | none => rfl
  | some _grad =>
    cases _MMX_LOAD_PS W s.v_ (start_id + i) with
    | none => rfl
    | some _v =>
      cases _MMX_LOAD_PS W param (start_id + i) with
      | none => rfl
      | some _w =>
        simp only []
        cases _MMX_STORE_PS W s.v_ (start_id + i)
          (_MMX_SUB_PS (_MMX_MUL_PS (_MMX_SET1_PS W s.rho_) _v)
            (_MMX_MUL_PS (_MMX_SET1_PS W s.learning_rate_) _grad)) with
        | none => rfl
        | some v1 =>
          cases _MMX_STORE_PS W param (start_id + i)
            (_MMX_ADD_PS _w (_MMX_SUB_PS
              (_MMX_MUL_PS (_MMX_SET1_PS W (s.rho_ + 1))
                (_MMX_SUB_PS (_MMX_MUL_PS (_MMX_SET1_PS W s.rho_) _v)
                  (_MMX_MUL_PS (_MMX_SET1_PS W s.learning_rate_) _grad)))
              (_MMX_MUL_PS (_MMX_SET1_PS W s.rho_) _v))) with
          | none => rfl
          | some param1 => rfl

/-- Replacing the regularization fields before a run of the vector loop is the
same as replacing them in its result. -/
theorem BatchUpdate.loop_setRegu (W : Nat) (value : List ℚ) (start_id : Nat)
    (l1 l2 : ℚ) (t : ReguType) (fuel : Nat) :
    ∀ (i : Nat) (s : Nesterov) (param : List ℚ),
      BatchUpdate.loop W value start_id fuel i (setRegu s l1 l2 t) param =
        (BatchUpdate.loop W value start_id fuel i s param).map
          (fun r => (setRegu r.1 l1 l2 t, r.2)) := by
  induction fuel with
  | zero => intro i s param; rfl
  | succ fuel ih =>
    intro i s param
    simp only [BatchUpdate.loop]
    split_ifs with hlt
    · rw [BatchUpdate.body_setRegu]
      cases BatchUpdate.body W value start_id i s param with
      | ok r => obtain ⟨s1, p1⟩ := r; exact ih _ s1 p1
      | checkFailed r => rfl
      | outOfBounds => rfl
      | outOfFuel => rfl
    · rfl

/-- Replacing the regularization fields before a call of `BatchUpdate` is the
same as replacing them in its result. -/
theorem BatchUpdate_setRegu (W : Nat) (s : Nesterov) (l1 l2 : ℚ) (t : ReguType)
    (value : List ℚ) (start_id : Nat) (param : List ℚ) :
    BatchUpdate W (setRegu s l1 l2 t) value start_id param =
      (BatchUpdate W s value start_id param).map (fun r => (setRegu r.1 l1 l2 t, r.2)) := by
  unfold BatchUpdate
  split_ifs
  · exact BatchUpdate.loop_setRegu W value start_id l1 l2 t _ _ _ _
  · rfl
  · rfl

/-- What a caller observes of a result does not depend on regularization
fields replaced in it. -/
theorem map_velocityAndParam_setRegu (o : Outcome (Nesterov × List ℚ)) (l1 l2 : ℚ)
    (t : ReguType) :
    (o.map (fun r => (setRegu r.1 l1 l2 t, r.2))).map velocityAndParam
      = o.map velocityAndParam := by
  cases o <;> rfl

/-- C15. For two updaters with the same learning rate, momentum coefficient and
velocity vector, whatever their regularization fields are, `Update` on the
same arguments has the same outcome with the same velocity vector and
parameter buffer, and so has `BatchUpdate`. -/
theorem regularization_not_read (W : Nat) (s t : Nesterov)
    (hlr : s.learning_rate_ = t.learning_rate_) (hrho : s.rho_ = t.rho_) (hv : s.v_ = t.v_) :
    (∀ id g param,
      (Update s id g param).map velocityAndParam = (Update t id g param).map velocityAndParam) ∧
    (∀ value start_id param,
      (BatchUpdate W s value start_id param).map velocityAndParam
        = (BatchUpdate W t value start_id param).map velocityAndParam) := by
  have ht : t = setRegu s t.regu_lambda_1_ t.regu_lambda_2_ t.regu_type_ := by
    cases s
    cases t
    simp only [] at hlr hrho hv
    subst hlr hrho hv
    rfl
  constructor
  · intro id g param
    rw [ht, Update_setRegu, map_velocityAndParam_setRegu]
  · intro value start_id param
    rw [ht, BatchUpdate_setRegu, map_velocityAndParam_setRegu]

/-- Witness of C15: two updaters that differ in all three regularization
fields. -/
theorem regularization_not_read_witness :
    (∀ id g param,
      (Update ⟨1/10, 1, 2, .L1, 9/10, [1, 2, 3, 4]⟩ id g param).map velocityAndParam
        = (Update ⟨1/10, 5, 7, .None, 9/10, [1, 2, 3, 4]⟩ id g param).map velocityAndParam) ∧
    (∀ value start_id param,
      (BatchUpdate 2 ⟨1/10, 1, 2, .L1, 9/10, [1, 2, 3, 4]⟩ value start_id param).map
          velocityAndParam
        = (BatchUpdate 2 ⟨1/10, 5, 7, .None, 9/10, [1, 2, 3, 4]⟩ value start_id param).map
          velocityAndParam) :=
  regularization_not_read 2 ⟨1/10, 1, 2, .L1, 9/10, [1, 2, 3, 4]⟩
    ⟨1/10, 5, 7, .None, 9/10, [1, 2, 3, 4]⟩ rfl rfl rfl

/-! ### A sequence of calls on one id -/

/-- After the calls `Update(id, g, param)` for the gradients `g` of a list,
starting from velocity `v0` and parameter `p0` at `id`: the run returns, the
trace has one velocity per call, and the parameter at `id` is `p0` plus the sum
of the trace plus `rho` times the change of the velocity. -/
theorem UpdateSeq_same_id (id : Nat) (gs : List ℚ) :
    ∀ (s : Nesterov) (param : List ℚ) (v0 p0 : ℚ),
      s.v_[id]? = some v0 → param[id]? = some p0 →
      ∃ sn paramn vn,
        UpdateSeq (gs.map (fun g => (id, g))) s param = .ok (sn, paramn) ∧
        sn.v_[id]? = some vn ∧
        (velocityTrace id gs s param).length = gs.length ∧
        (velocityTrace id gs s param).getLastD v0 = vn ∧
        paramn[id]? = some (p0 + (velocityTrace id gs s param).sum + s.rho_ * (vn - v0)) := by
  induction gs with
  | nil =>
    intro s param v0 p0 hv hp
    refine ⟨s, param, v0, rfl, hv, rfl, rfl, ?_⟩
    rw [hp]
    simp [velocityTrace]
  | cons g gs ih =>
    intro s param v0 p0 hv hp
    obtain ⟨hv1, -⟩ := List.getElem?_eq_some.mp hv
    obtain ⟨hp1, -⟩ := List.getElem?_eq_some.mp hp
    have e := Update_of_getElem? s id g param v0 p0 hv hp
    obtain ⟨sn, paramn, vn, hrun, hvn, hlen, hlast, hpn⟩ :=
      ih { s with v_ := s.v_.set id (s.rho_ * v0 - s.learning_rate_ * g) }
        (param.set id (p0 + (-s.rho_ * v0 + (1 + s.rho_) * (s.rho_ * v0 - s.learning_rate_ * g))))
        _ _ (List.getElem?_set_self hv1) (List.getElem?_set_self hp1)
    have htr : velocityTrace id (g :: gs) s param =
        (s.rho_ * v0 - s.learning_rate_ * g) ::
          velocityTrace id gs { s with v_ := s.v_.set id (s.rho_ * v0 - s.learning_rate_ * g) }
            (param.set id
              (p0 + (-s.rho_ * v0 + (1 + s.rho_) * (s.rho_ * v0 - s.learning_rate_ * g)))) := by
      simp only [velocityTrace, e]
      rw [List.getD_eq_getElem?_getD, List.getElem?_set_self hv1]
      rfl
    refine ⟨sn, paramn, vn, ?_, hvn, ?_, ?_, ?_⟩
    · simp only [List.map_cons, UpdateSeq, e]
      exact hrun
    · rw [htr, List.length_cons, hlen, List.length_cons]
    · rw [htr, List.getLastD_cons]
      exact hlast
    · rw [hpn, htr, List.sum_cons]
      congr 1
      simp only []
      ring

/-- C17, amended. In exact rational arithmetic: for an id inside both vectors
and gradients `g_1, ..., g_n`, the `n` calls `Update(id, g_k, param)` return,
and the parameter at `id` is then
`p_0 + (v_1 + ... + v_n) + rho * (v_n - v_0)`, where `v_k` is the velocity at
`id` after the `k`-th call, `v_0` and `p_0` the velocity and the parameter
before the first one. -/
theorem Update_telescoping (s : Nesterov) (id : Nat) (gs : List ℚ) (param : List ℚ)
    (hv : id < s.v_.length) (hp : id < param.length) :
    ∃ sn paramn vn,
      UpdateSeq (gs.map (fun g => (id, g))) s param = .ok (sn, paramn) ∧
      sn.v_[id]? = some vn ∧
      (velocityTrace id gs s param).length = gs.length ∧
      (velocityTrace id gs s param).getLastD s.v_[id] = vn ∧
      paramn[id]? =
        some (param[id] + (velocityTrace id gs s param).sum + s.rho_ * (vn - s.v_[id])) :=
  UpdateSeq_same_id id gs s param _ _ (List.getElem?_eq_getElem hv) (List.getElem?_eq_getElem hp)

/-- Witness of C17, amended: lr = 1/10, rho = 9/10, three calls on id 1. -/
theorem Update_telescoping_witness :
    ∃ (sn : Nesterov) (paramn : List ℚ) (vn : ℚ),
      UpdateSeq (([1, 1, -2] : List ℚ).map (fun g => (1, g)))
        ⟨1/10, 1, 1, .None, 9/10, [4, 0]⟩ [3, 0] = .ok (sn, paramn) ∧
      sn.v_[1]? = some vn ∧
      (velocityTrace 1 [1, 1, -2] ⟨1/10, 1, 1, .None, 9/10, [4, 0]⟩ [3, 0]).length
        = ([1, 1, -2] : List ℚ).length ∧
      (velocityTrace 1 [1, 1, -2] ⟨1/10, 1, 1, .None, 9/10, [4, 0]⟩ [3, 0]).getLastD 0 = vn ∧
      paramn[1]? =
        some ((0 : ℚ) + (velocityTrace 1 [1, 1, -2] ⟨1/10, 1, 1, .None, 9/10, [4, 0]⟩ [3, 0]).sum
          + 9/10 * (vn - 0)) :=
  Update_telescoping ⟨1/10, 1, 1, .None, 9/10, [4, 0]⟩ 1 [1, 1, -2] [3, 0]
    (by decide) (by decide)

/-! ### Calls on different ids commute -/

/-- The gradients on `k` of a sequence that starts with a call on `k`. -/
theorem gradsAt_cons_self (k : Nat) (g : ℚ) (calls : List (Nat × ℚ)) :
    gradsAt k ((k, g) :: calls) = g :: gradsAt k calls := by
  simp [gradsAt, List.filter_cons]

/-- The gradients on `k` of a sequence that starts with a call on another id. -/
theorem gradsAt_cons_ne (k a : Nat) (g : ℚ) (calls : List (Nat × ℚ)) (h : a ≠ k) :
    gradsAt k ((a, g) :: calls) = gradsAt k calls := by
  simp [gradsAt, List.filter_cons, h]

/-- A sequence of calls of `Update` on ids inside both vectors returns and
changes only the velocity vector of the updater; entry `k` of either vector is
the result of the recurrence run on the old entries with the gradients of the
calls on `k`, in their order. -/
theorem UpdateSeq_closed_form (calls : List (Nat × ℚ)) :
    ∀ (s : Nesterov) (param : List ℚ),
      (∀ c ∈ calls, c.1 < s.v_.length ∧ c.1 < param.length) →
      ∃ V P, UpdateSeq calls s param = .ok ({ s with v_ := V }, P) ∧
        (∀ k, V[k]? = (s.v_[k]?).map (fun v =>
          ((gradsAt k calls).foldl (coordStep s.rho_ s.learning_rate_)
            (v, param.getD k 0)).1)) ∧
        (∀ k, P[k]? = (param[k]?).map (fun p =>
          ((gradsAt k calls).foldl (coordStep s.rho_ s.learning_rate_)
            (s.v_.getD k 0, p)).2)) := by
  induction calls with
  | nil =>
    intro s param _
    refine ⟨s.v_, param, rfl, fun k => ?_, fun k => ?_⟩
    · cases s.v_[k]? <;> rfl
    · cases param[k]? <;> rfl
  | cons c calls ih =>
    intro s param hin
    obtain ⟨a, g⟩ := c
    obtain ⟨hv1, hp1⟩ := hin (a, g) (List.mem_cons_self _ _)
    simp only [] at hv1 hp1
    have e := Update_eq_ok s a g param hv1 hp1
    obtain ⟨V, P, hrun, hV, hP⟩ :=
      ih { s with v_ := s.v_.set a (s.rho_ * s.v_[a] - s.learning_rate_ * g) }
        (param.set a (param[a] + (-s.rho_ * s.v_[a]
              + (1 + s.rho_) * (s.rho_ * s.v_[a] - s.learning_rate_ * g))))
        (fun c hc => by
          simp only [List.length_set]
          exact hin c (List.mem_cons_of_mem _ hc))
    refine ⟨V, P, ?_, ?_, ?_⟩
    · simp only [UpdateSeq, e]
      exact hrun
    · intro k
      rw [hV k]
      simp only []
      by_cases hk : a = k
      · subst hk
        rw [gradsAt_cons_self, List.getElem?_set_self hv1, List.getElem?_eq_getElem hv1,
          List.getD_eq_getElem?_getD, List.getD_eq_getElem?_getD, List.getElem?_set_self hp1,
          List.getElem?_eq_getElem hp1]
        rfl
      · rw [gradsAt_cons_ne k a g calls hk, List.getElem?_set_ne hk,
          List.getD_eq_getElem?_getD, List.getD_eq_getElem?_getD, List.getElem?_set_ne hk]
    · intro k
      rw [hP k]
      simp only []
      by_cases hk : a = k
      · subst hk
        rw [gradsAt_cons_self, List.getElem?_set_self hp1, List.getElem?_eq_getElem hp1,
          List.getD_eq_getElem?_getD, List.getD_eq_getElem?_getD, List.getElem?_set_self hv1,
          List.getElem?_eq_getElem hv1]
        rfl
      · rw [gradsAt_cons_ne k a g calls hk, List.getElem?_set_ne hk,
          List.getD_eq_getElem?_getD, List.getD_eq_getElem?_getD, List.getElem?_set_ne hk]

/-- C12. For two different ids `a` and `b` inside both vectors, the calls
`Update(a, g_a)` then `Update(b, g_b)` return the same updater state and
parameter buffer as `Update(b, g_b)` then `Update(a, g_a)`.  More generally two
sequences of calls on ids inside both vectors that have, for every id, the
same calls on that id in the same order return the same state and buffer. -/
theorem Update_commute (s : Nesterov) (param : List ℚ) (a b : Nat) (ga gb : ℚ)
    (hab : a ≠ b) (hav : a < s.v_.length) (hap : a < param.length)
    (hbv : b < s.v_.length) (hbp : b < param.length) :
    (∃ s1 param1 s2 param2 st,
      Update s a ga param = .ok (s1, param1) ∧ Update s1 b gb param1 = .ok st ∧
      Update s b gb param = .ok (s2, param2) ∧ Update s2 a ga param2 = .ok st) ∧
    (∀ calls1 calls2 : List (Nat × ℚ),
      (∀ c ∈ calls1, c.1 < s.v_.length ∧ c.1 < param.length) →
      (∀ k, calls1.filter (fun c => decide (c.1 = k))
          = calls2.filter (fun c => decide (c.1 = k))) →
      ∃ st, UpdateSeq calls1 s param = .ok st ∧ UpdateSeq calls2 s param = .ok st) := by
  have general : ∀ calls1 calls2 : List (Nat × ℚ),
      (∀ c ∈ calls1, c.1 < s.v_.length ∧ c.1 < param.length) →
      (∀ k, calls1.filter (fun c => decide (c.1 = k))
          = calls2.filter (fun c => decide (c.1 = k))) →
      ∃ st, UpdateSeq calls1 s param = .ok st ∧ UpdateSeq calls2 s param = .ok st := by
    intro calls1 calls2 hin hsame
    have hin2 : ∀ c ∈ calls2, c.1 < s.v_.length ∧ c.1 < param.length := by
      intro c hc
      have hc2 : c ∈ calls2.filter (fun d => decide (d.1 = c.1)) :=
        List.mem_filter.mpr ⟨hc, by simp⟩
      rw [← hsame c.1] at hc2
      exact hin c (List.mem_filter.mp hc2).1
    have hg : ∀ k, gradsAt k calls1 = gradsAt k calls2 := fun k => by
      unfold gradsAt
      rw [hsame k]
    obtain ⟨V1, P1, h1, hV1, hP1⟩ := UpdateSeq_closed_form calls1 s param hin
    obtain ⟨V2, P2, h2, hV2, hP2⟩ := UpdateSeq_closed_form calls2 s param hin2
    have eV : V1 = V2 := List.ext_getElem? fun k => by rw [hV1 k, hV2 k, hg k]
    have eP : P1 = P2 := List.ext_getElem? fun k => by rw [hP1 k, hP2 k, hg k]
    exact ⟨_, h1, by rw [h2, eV, eP]⟩
  refine ⟨?_, general⟩
  obtain ⟨st, h1, h2⟩ := general [(a, ga), (b, gb)] [(b, gb), (a, ga)]
    (by
      intro c hc
      simp only [List.mem_cons, List.mem_singleton, List.not_mem_nil, or_false] at hc
      rcases hc with rfl | rfl
      · exact ⟨hav, hap⟩
      · exact ⟨hbv, hbp⟩)
    (by
      intro k
      by_cases hka : a = k
      · subst hka
        simp [List.filter_cons, hab, Ne.symm hab]
      · by_cases hkb : b = k
        · subst hkb
          simp [List.filter_cons, hab, Ne.symm hab]
        · simp [List.filter_cons, hka, hkb])
  have ea := Update_eq_ok s a ga param hav hap
  have eb := Update_eq_ok s b gb param hbv hbp
  simp only [UpdateSeq, ea, eb] at h1 h2
  refine ⟨_, _, _, _, st, ea, ?_, eb, ?_⟩
  · cases hu : Update { s with v_ := s.v_.set a (s.rho_ * s.v_[a] - s.learning_rate_ * ga) } b gb
        (param.set a (param[a] + (-s.rho_ * s.v_[a]
              + (1 + s.rho_) * (s.rho_ * s.v_[a] - s.learning_rate_ * ga)))) with
    | ok r => obtain ⟨s3, p3⟩ := r; rw [hu] at h1; exact h1
    | checkFailed r => rw [hu] at h1; exact Outcome.noConfusion h1
    | outOfBounds => rw [hu] at h1; exact Outcome.noConfusion h1
    | outOfFuel => rw [hu] at h1; exact Outcome.noConfusion h1
  · cases hu : Update { s with v_ := s.v_.set b (s.rho_ * s.v_[b] - s.learning_rate_ * gb) } a ga
        (param.set b (param[b] + (-s.rho_ * s.v_[b]
              + (1 + s.rho_) * (s.rho_ * s.v_[b] - s.learning_rate_ * gb)))) with
    | ok r => obtain ⟨s3, p3⟩ := r; rw [hu] at h2; exact h2
    | checkFailed r => rw [hu] at h2; exact Outcome.noConfusion h2
    | outOfBounds => rw [hu] at h2; exact Outcome.noConfusion h2
    | outOfFuel => rw [hu] at h2; exact Outcome.noConfusion h2

/-- Witness of C12: the ids 0 and 2 of vectors of length 3. -/
theorem Update_commute_witness :
    (∃ (s1 : Nesterov) (param1 : List ℚ) (s2 : Nesterov) (param2 : List ℚ)
        (st : Nesterov × List ℚ),
      Update ⟨1/10, 1, 1, .None, 9/10, [1, 2, 3]⟩ 0 5 [4, 5, 6] = .ok (s1, param1) ∧
      Update s1 2 (-1) param1 = .ok st ∧
      Update ⟨1/10, 1, 1, .None, 9/10, [1, 2, 3]⟩ 2 (-1) [4, 5, 6] = .ok (s2, param2) ∧
      Update s2 0 5 param2 = .ok st) ∧
    (∀ calls1 calls2 : List (Nat × ℚ),
      (∀ c ∈ calls1, c.1 < ([1, 2, 3] : List ℚ).length ∧ c.1 < ([4, 5, 6] : List ℚ).length) →
      (∀ k, calls1.filter (fun c => decide (c.1 = k))
          = calls2.filter (fun c => decide (c.1 = k))) →
      ∃ st, UpdateSeq calls1 ⟨1/10, 1, 1, .None, 9/10, [1, 2, 3]⟩ [4, 5, 6] = .ok st ∧
        UpdateSeq calls2 ⟨1/10, 1, 1, .None, 9/10, [1, 2, 3]⟩ [4, 5, 6] = .ok st) :=
  Update_commute ⟨1/10, 1, 1, .None, 9/10, [1, 2, 3]⟩ [4, 5, 6] 0 2 5 (-1)
    (by decide) (by decide) (by decide) (by decide) (by decide)

end Nesterov

/-! ### `Update` in binary32: rounding and overflow -/

namespace NesterovF32

/-- Counterexample to C7 as stated: in binary32, with `rho = 1 - 2^-23` (a
binary32 number), velocity 1 and two calls `Update(0, 0, param)`, the velocity
left is `4194303/4194304`, which is not `rho^2 * 1`. -/
theorem UpdateRepeat_velocity_rounds :
    F32.ofRat (8388607/8388608) = .fin (8388607/8388608) ∧
    UpdateRepeat 0 (.fin 0) 2 ⟨.fin (1/8), .fin (8388607/8388608), [.fin 1]⟩ [.fin 0]
      = .ok (⟨.fin (1/8), .fin (8388607/8388608), [.fin (4194303/4194304)]⟩,
          [.fin (16777211/8388608)]) ∧
    (4194303/4194304 : ℚ) ≠ (8388607/8388608) ^ 2 * 1 := by
  decide!

/-- Counterexample to C8 as stated: in binary32, with `rho = 7/8`, velocity
`2^126` and parameter `7/4 * 2^127` (binary32 numbers), one call
`Update(0, 0, param)` leaves the parameter `+infinity`, which is not the
number `p_0 + v_0 * rho^2 * (1 - rho^1) / (1 - rho)` and is not within
`|v_0| * rho^2 / (1 - rho)` of `p_0`. -/
theorem UpdateRepeat_param_overflows :
    (F32.ofRat (2 ^ 126) = .fin (2 ^ 126) ∧ F32.ofRat (7/4 * 2 ^ 127) = .fin (7/4 * 2 ^ 127)) ∧
    ((0 : ℚ) ≤ 7/8 ∧ (7/8 : ℚ) < 1) ∧
    UpdateRepeat 0 (.fin 0) 1 ⟨.fin (1/8), .fin (7/8), [.fin (2 ^ 126)]⟩ [.fin (7/4 * 2 ^ 127)]
      = .ok (⟨.fin (1/8), .fin (7/8), [.fin (7/8 * 2 ^ 126)]⟩, [.inf false]) ∧
    F32.inf false ≠
      F32.fin (7/4 * 2 ^ 127 + 2 ^ 126 * (7/8) ^ 2 * (1 - (7/8) ^ 1) / (1 - 7/8)) := by
  decide!

/-- Counterexample to C17 as stated: in binary32, with `rho = 2^-24`, learning
rate 1, velocity 0 and parameter 0, the single call `Update(0, -1, param)`
leaves velocity `v_1 = 1` and parameter 1, which is not
`p_0 + v_1 + rho * (v_1 - v_0) = 1 + 2^-24`. -/
theorem Update_param_rounds :
    F32.ofRat (1 / 2 ^ 24) = .fin (1 / 2 ^ 24) ∧
    Update ⟨.fin 1, .fin (1 / 2 ^ 24), [.fin 0]⟩ 0 (.fin (-1)) [.fin 0]
      = .ok (⟨.fin 1, .fin (1 / 2 ^ 24), [.fin 1]⟩, [.fin 1]) ∧
    (1 : ℚ) ≠ 0 + 1 + 1 / 2 ^ 24 * (1 - 0) := by
  decide!

end NesterovF32

end xLearn
